import Mathlib

/-!
Verification of the target-enumeration core (`src/shard.c`) of the zmap
repository: cyclic-group sharding of the (address-index, port-index) scan
universe, and the per-step advance/decode engine.

The C code is shallowly embedded on `Nat`.  All machine arithmetic is
modelled explicitly: `uint64_t` multiplication wraps modulo `2 ^ 64`
(`U64`) exactly where the C source computes it, the `uint64_t` decrement
`v - 1` is `dec64`, and the narrowing casts `(uint32_t)`/`(uint16_t)` are
`% 2 ^ 32` / `% 2 ^ 16`.  The external collaborators (blocklist lookup,
port-list lookup) are out of scope per the specification and are modelled
as the identity on indices: `target_t` carries the decoded indices.
-/

/-- Width bound of the C `uint64_t` type. -/
def U64 : Nat := 2 ^ 64

/-- Truncating 64-bit decrement: models the C expression `v - 1` on a
`uint64_t` operand (wraps to `2 ^ 64 - 1` when `v = 0`). -/
def dec64 (v : Nat) : Nat := (v + (U64 - 1)) % U64

/-- Modelled from the spec: the sentinel "DONE" cursor value.  The header
`shard.h` defining `ZMAP_SHARD_DONE` is not among the sources; the spec
(§3, Design Notes) fixes the sentinel to the reserved data value `0`,
"never produced by valid exponentiation since group elements are in
`[1, modulus)`". -/
def ZMAP_SHARD_DONE : Nat := 0

/-- C: `static inline uint16_t extract_port(uint64_t v, uint8_t bits)`.
`mask = (1 << bits) - 1` (defined C behaviour for `bits ≤ 30`; zmap uses
`bits ≤ 16`), then `(uint16_t)(v & mask)`; the cast is `% 2 ^ 16`. -/
def extract_port (v : Nat) (bits : Nat) : Nat :=
  ((v &&& ((1 <<< bits) - 1))) % 2 ^ 16

/-- C: `static inline uint32_t extract_ip(uint64_t v, uint8_t bits)`:
`(uint32_t)(v >> bits)`; the cast is `% 2 ^ 32`. -/
def extract_ip (v : Nat) (bits : Nat) : Nat :=
  (v >>> bits) % 2 ^ 32

/-- CyclicGroup parameters (spec §3); the shard code reads only `prime`. -/
structure cyclic_group_t where
  prime : Nat
  order : Nat
deriving DecidableEq

/-- Cycle descriptor.  The shard code reads `cycle->group->prime`,
`cycle->generator`, `cycle->order` and `cycle->offset` (`cycle.h` is not
among the sources; fields are modelled from those accesses and spec §3). -/
structure cycle_t where
  group : cyclic_group_t
  generator : Nat
  order : Nat
  offset : Nat
deriving DecidableEq

/-- C struct `shard_params` as assigned by `shard_init`. -/
structure shard_params_t where
  first : Nat
  last : Nat
  factor : Nat
  modulus : Nat
deriving DecidableEq

/-- C struct `shard`.  `max_targets` models `shard->state.max_targets`,
which `shard_init` assigns only when `max_total_targets > 0` (spec §3
types it `Option<u64>`); `iterations` starts at 0 in the zeroed state the
caller provides.  The completion callback fields `cb`/`arg` are opaque
driver context (spec §6) and are not modelled. -/
structure shard_t where
  params : shard_params_t
  bits_for_port : Nat
  current : Nat
  iterations : Nat
  thread_id : Nat
  max_targets : Option Nat
deriving DecidableEq

/-- Status component of `target_t` (`ZMAP_SHARD_OK` / `ZMAP_SHARD_DONE`). -/
inductive shard_status where
  | OK : shard_status
  | DONE : shard_status
deriving DecidableEq

/-- C struct `target`.  In the source, `ip` and `port` pass through the
external collaborators `blocklist_lookup_index` and `zconf.ports->ports[]`
(out of scope, spec §1/§6); here they carry the decoded indices. -/
structure target_t where
  ip : Nat
  port : Nat
  status : shard_status
deriving DecidableEq

/-- Read-only scan-wide bounds the C code reads from the process globals
`zsend.max_target_index`, `zsend.max_ip_index` and
`zconf.ports->port_count` (spec §6; Design Notes ask for them to be passed
explicitly). -/
structure scan_env_t where
  max_target_index : Nat
  max_ip_index : Nat
  port_count : Nat
deriving DecidableEq

/-- Value level of `shard_get_next_elem`: the two C statements
`shard->current *= shard->params.factor; shard->current %= shard->params.modulus;`
on `uint64_t`, so the product wraps modulo `2 ^ 64` before the reduction. -/
def stepVal (pr : shard_params_t) (x : Nat) : Nat :=
  x * pr.factor % U64 % pr.modulus

/-- Iterated advance values (`n` applications of `stepVal`). -/
def stepIter (pr : shard_params_t) : Nat → Nat → Nat
  | 0, x => x
  | n + 1, x => stepIter pr n (stepVal pr x)

/-- C: `static inline uint64_t shard_get_next_elem(shard_t *shard)`:
mutates `current` and returns the new value. -/
def shard_get_next_elem (s : shard_t) : shard_t × Nat :=
  ({ s with current := stepVal s.params s.current }, stepVal s.params s.current)

/-- Outcome of one iteration of the `while (1)` body of
`shard_get_next_target`. -/
inductive step_outcome where
  | done : step_outcome
  | skip : step_outcome
  | emit : Nat → Nat → step_outcome
deriving DecidableEq

/-- One iteration of the `while (1)` body of `shard_get_next_target`
(lines 170-196): advance, test against `params.last`, pre-filter against
`zsend.max_target_index`, decode `candidate - 1` and bounds-check it. -/
def shard_loop_body (env : scan_env_t) (s : shard_t) : shard_t × step_outcome :=
  let r := shard_get_next_elem s
  let s1 := r.1
  let candidate := r.2
  if candidate = s1.params.last then
    ({ s1 with current := ZMAP_SHARD_DONE, iterations := s1.iterations + 1 },
      step_outcome.done)
  else if env.max_target_index ≤ candidate then
    (s1, step_outcome.skip)
  else
    let candidate_ip := extract_ip (dec64 candidate) s1.bits_for_port
    let candidate_port := extract_port (dec64 candidate) s1.bits_for_port
    if candidate_ip < env.max_ip_index ∧ candidate_port < env.port_count then
      ({ s1 with iterations := s1.iterations + 1 },
        step_outcome.emit candidate_ip candidate_port)
    else
      (s1, step_outcome.skip)

/-- The `while (1)` loop of `shard_get_next_target`, with explicit fuel
(`none` = fuel exhausted; the C loop has no internal bound). -/
def shard_next_loop (env : scan_env_t) : Nat → shard_t → Option (shard_t × target_t)
  | 0, _ => none
  | fuel + 1, s =>
    match shard_loop_body env s with
    | (s1, step_outcome.done) => some (s1, ⟨0, 0, shard_status.DONE⟩)
    | (s1, step_outcome.emit ip port) => some (s1, ⟨ip, port, shard_status.OK⟩)
    | (s1, step_outcome.skip) => shard_next_loop env fuel s1

/-- C: `target_t shard_get_next_target(shard_t *shard)` (lines 164-197). -/
def shard_get_next_target (env : scan_env_t) (fuel : Nat) (s : shard_t) :
    Option (shard_t × target_t) :=
  if s.current = ZMAP_SHARD_DONE then some (s, ⟨0, 0, shard_status.DONE⟩)
  else shard_next_loop env fuel s

/-- C: `target_t shard_get_cur_target(shard_t *shard)` (lines 143-155). -/
def shard_get_cur_target (s : shard_t) : target_t :=
  if s.current = ZMAP_SHARD_DONE then ⟨0, 0, shard_status.DONE⟩
  else
    ⟨extract_ip (dec64 s.current) s.bits_for_port,
     extract_port (dec64 s.current) s.bits_for_port,
     shard_status.OK⟩

/-- C: `static void shard_roll_to_valid(shard_t *s)` (lines 31-39).  Note
that `current_ip_index` stays `uint64_t` here (no `uint32_t` narrowing,
unlike `extract_ip`), exactly as in the source. -/
def shard_roll_to_valid (env : scan_env_t) (fuel : Nat) (s : shard_t) :
    Option shard_t :=
  let current_ip_index := dec64 s.current >>> s.bits_for_port
  let candidate_port := extract_port (dec64 s.current) s.bits_for_port
  if current_ip_index < env.max_ip_index ∧ candidate_port < env.port_count then
    some s
  else
    (shard_get_next_target env fuel s).map Prod.fst

/-- Per-subshard quota from `shard_init` lines 117-123: the local
`max_targets_this_shard`, i.e. `max_total_targets / num_subshards`,
incremented by one when `sub_idx < max_total_targets % num_subshards`. -/
def max_targets_this_shard (max_total_targets num_subshards sub_idx : Nat) : Nat :=
  max_total_targets / num_subshards +
    if sub_idx < max_total_targets % num_subshards then 1 else 0

/-- The body of `shard_init` before the final `shard_roll_to_valid` call
(lines 41-128).  The four index `assert`s and the two precondition
`assert`s abort the C program; they are modelled as `none`.  The `uint64_t`
products `(num_elts / num_subshards) * sub_idx` cannot wrap (they are less
than `num_elts`), but the sum `exponent + cycle->offset` can, so it is
reduced modulo `2 ^ 64` before the `% num_elts`, as in the source.
`mpz_powm` is exact modular exponentiation, i.e. `g ^ e % p`. -/
def shard_init_raw (shard_idx num_shards thread_idx num_threads : Nat)
    (max_total_targets bits_for_port : Nat) (cycle : cycle_t) : Option shard_t :=
  if 0 < num_shards ∧ 0 < num_threads ∧ shard_idx < num_shards ∧
      thread_idx < num_threads then
    let num_subshards := num_shards * num_threads
    let num_elts := cycle.order
    if num_subshards < num_elts ∧
        (max_total_targets = 0 ∨ num_subshards ≤ max_total_targets) then
      let sub_idx := shard_idx * num_threads + thread_idx
      let exponent_begin :=
        ((num_elts / num_subshards) * sub_idx + cycle.offset) % U64 % num_elts
      let exponent_end :=
        ((num_elts / num_subshards) * ((sub_idx + 1) % num_subshards) +
          cycle.offset) % U64 % num_elts
      let first := cycle.generator ^ exponent_begin % cycle.group.prime
      let last := cycle.generator ^ exponent_end % cycle.group.prime
      some
        { params :=
            { first := first, last := last, factor := cycle.generator,
              modulus := cycle.group.prime },
          bits_for_port := bits_for_port,
          current := first,
          iterations := 0,
          thread_id := thread_idx,
          max_targets :=
            if 0 < max_total_targets then
              some (max_targets_this_shard max_total_targets num_subshards sub_idx)
            else none }
    else none
  else none

/-- C: `void shard_init(...)` (lines 41-141): construct the raw shard and
roll it to the first valid position. -/
def shard_init (env : scan_env_t) (fuel : Nat)
    (shard_idx num_shards thread_idx num_threads : Nat)
    (max_total_targets bits_for_port : Nat) (cycle : cycle_t) : Option shard_t :=
  match shard_init_raw shard_idx num_shards thread_idx num_threads
      max_total_targets bits_for_port cycle with
  | none => none
  | some s => shard_roll_to_valid env fuel s

/-- Raw sequence values a shard produces before filtering: the successive
`current` values computed by the loop body, stopping (exclusively) when the
advance hits `params.last`. -/
def shard_raw_trace (env : scan_env_t) : Nat → shard_t → List Nat
  | 0, _ => []
  | fuel + 1, s =>
    match shard_loop_body env s with
    | (_, step_outcome.done) => []
    | (s1, step_outcome.skip) => s1.current :: shard_raw_trace env fuel s1
    | (s1, step_outcome.emit _ _) => s1.current :: shard_raw_trace env fuel s1

/-- Driver advance loop: repeatedly take one raw step, collecting the
emitted `(ip_index, port_index)` pairs; the Bool records whether DONE was
reached within the given fuel.  This is the send-loop's repeated
`shard_get_next_target` fused over the raw steps of its internal loop. -/
def shard_drive (env : scan_env_t) : Nat → shard_t → List (Nat × Nat) × Bool
  | 0, _ => ([], false)
  | fuel + 1, s =>
    match shard_loop_body env s with
    | (_, step_outcome.done) => ([], true)
    | (s1, step_outcome.skip) => shard_drive env fuel s1
    | (s1, step_outcome.emit ip port) =>
      let r := shard_drive env fuel s1
      ((ip, port) :: r.1, r.2)

/-- Full enumeration of a shard as the driver sees it: read the current
target (the position `shard_init` left the cursor on), then advance to
DONE, collecting every emitted pair. -/
def shard_enumerate (env : scan_env_t) (fuel : Nat) (s : shard_t) :
    List (Nat × Nat) × Bool :=
  if s.current = ZMAP_SHARD_DONE then ([], true)
  else
    let t := shard_get_cur_target s
    let r := shard_drive env fuel s
    ((t.ip, t.port) :: r.1, r.2)

/-- Repeated driver calls to `shard_get_next_target` (each call with the
given fuel), keeping the shard component; used to count advance calls
until DONE. -/
def shard_call_iter (env : scan_env_t) (fuel : Nat) : Nat → shard_t → shard_t
  | 0, s => s
  | n + 1, s =>
    match shard_get_next_target env fuel s with
    | none => s
    | some (s', _) => shard_call_iter env fuel n s'

/-- Subshard `i` of an `N`-shard, `T`-thread configuration: shard index
`i / T`, thread index `i % T`, so that `sub_idx = (i / T) * T + i % T = i`. -/
def subshard_init (env : scan_env_t) (cycle : cycle_t) (N T b i : Nat) :
    Option shard_t :=
  shard_init env cycle.order (i / T) N (i % T) T 0 b cycle

/-- Raw sequence values produced by subshard `i` (before filtering): the
initial group element assigned by `shard_init` followed by every candidate
the advance loop generates, run with fuel `cycle.order`. -/
def subshard_raw_values (env : scan_env_t) (cycle : cycle_t) (N T b i : Nat) :
    List Nat :=
  match shard_init_raw (i / T) N (i % T) T 0 b cycle with
  | none => []
  | some s => s.current :: shard_raw_trace env cycle.order s

/-- Whether subshard `i` initializes and reaches DONE within `cycle.order`
raw advance steps. -/
def subshard_done (env : scan_env_t) (cycle : cycle_t) (N T b i : Nat) : Bool :=
  match subshard_init env cycle N T b i with
  | none => false
  | some s => (shard_enumerate env cycle.order s).2

/-- Pairs emitted by subshard `i` when enumerated to completion. -/
def subshard_emitted (env : scan_env_t) (cycle : cycle_t) (N T b i : Nat) :
    List (Nat × Nat) :=
  match subshard_init env cycle N T b i with
  | none => []
  | some s => (shard_enumerate env cycle.order s).1

/-- Concatenation of the emitted pairs of all `N * T` subshards. -/
def all_emitted (env : scan_env_t) (cycle : cycle_t) (N T b : Nat) :
    List (Nat × Nat) :=
  (List.range (N * T)).flatMap (subshard_emitted env cycle N T b)

/-- The partition-exactness property of claim C1: distinct subshards
produce disjoint raw value sets; every subshard reaches DONE within
`cycle.order` raw steps; and the pairs emitted across all subshards are
duplicate-free and are exactly the cross-product
`[0, max_ip_index) × [0, port_count)`. -/
def partition_exact (env : scan_env_t) (cycle : cycle_t) (N T b : Nat) : Prop :=
  (∀ i ∈ List.range (N * T), ∀ j ∈ List.range (N * T), i ≠ j →
    ∀ v ∈ subshard_raw_values env cycle N T b i,
      v ∉ subshard_raw_values env cycle N T b j) ∧
  (∀ i ∈ List.range (N * T), subshard_done env cycle N T b i = true) ∧
  (all_emitted env cycle N T b).Nodup ∧
  (∀ pr ∈ all_emitted env cycle N T b,
    pr.1 < env.max_ip_index ∧ pr.2 < env.port_count) ∧
  (∀ a ∈ List.range env.max_ip_index, ∀ c ∈ List.range env.port_count,
    (a, c) ∈ all_emitted env cycle N T b)

instance (env : scan_env_t) (cycle : cycle_t) (N T b : Nat) :
    Decidable (partition_exact env cycle N T b) := by
  unfold partition_exact; infer_instance

/-- Fueled binary modular exponentiation (used in primality certificates;
kernel-reducible, unlike well-founded recursion). -/
def powModAux : Nat → Nat → Nat → Nat → Nat
  | 0, _, _, m => 1 % m
  | fuel + 1, b, e, m =>
    if e = 0 then 1 % m
    else
      let h := powModAux fuel (b * b % m) (e / 2) m
      if e % 2 = 1 then h * b % m else h

/-- Binary modular exponentiation for exponents below `2 ^ 64`. -/
def powMod (b e m : Nat) : Nat := powModAux 64 b e m

/-- Number of advance steps from position-exponent `α` to stop-exponent
`β` on the cycle of length `Q`: the unique `d ∈ [1, Q]` with
`α + d ≡ β [MOD Q]` (equal exponents give a full lap `Q`). -/
def distQ (Q α β : Nat) : Nat := (β + Q - α - 1) % Q + 1

/-- Eligibility of a raw value `v` in the advance loop: passes the
`max_target_index` pre-filter and decodes in bounds. -/
def emit_ok (env : scan_env_t) (b v : Nat) : Prop :=
  v < env.max_target_index ∧ extract_ip (dec64 v) b < env.max_ip_index ∧
    extract_port (dec64 v) b < env.port_count

instance (env : scan_env_t) (b v : Nat) : Decidable (emit_ok env b v) := by
  unfold emit_ok; infer_instance

/-- Decoded-pair bounds check (no `max_target_index` pre-filter; this is
the check `shard_roll_to_valid` makes, at 64-bit width truncation-free for
values below `2 ^ 32`). -/
def pair_ok (env : scan_env_t) (b v : Nat) : Prop :=
  extract_ip (dec64 v) b < env.max_ip_index ∧
    extract_port (dec64 v) b < env.port_count

instance (env : scan_env_t) (b v : Nat) : Decidable (pair_ok env b v) := by
  unfold pair_ok; infer_instance

/-- Decode a raw value into its `(ip_index, port_index)` pair. -/
def decode_pair (b v : Nat) : Nat × Nat :=
  (extract_ip (dec64 v) b, extract_port (dec64 v) b)

/-- Candidate values of an arc starting at exponent `α` with `d` steps to
the stop element: the `d - 1` proper candidates `g ^ (α + j) % p`,
`j = 1, …, d - 1` (the stop element itself is never produced). -/
def arc_cands (p g α d : Nat) : List Nat :=
  (List.range (d - 1)).map (fun j => g ^ (α + j + 1) % p)

/-- All raw values of an arc: the start element followed by the candidates. -/
def arc_full (p g α d : Nat) : List Nat :=
  (List.range d).map (fun j => g ^ (α + j) % p)

/-- Expected emissions of an arc: the in-bounds raw values, decoded. -/
def arc_emits (env : scan_env_t) (p g b α d : Nat) : List (Nat × Nat) :=
  ((arc_cands p g α d).filter (fun v => decide (emit_ok env b v))).map
    (decode_pair b)

/-- Exponent at which subshard `i` of `S` starts, for group order `Q` and
offset `k`: the rotated block boundary `(Q / S * i + k) % Q`. -/
def arc_start (Q S k i : Nat) : Nat := (Q / S * i + k) % Q

/-- Number of advance steps in subshard `i`'s arc: `Q / S` for every block
except the final one, which absorbs the remainder (`Q - Q / S * (S - 1)`);
for `S = 1` this is the whole cycle `Q`. -/
def arc_len (Q S i : Nat) : Nat :=
  if i = S - 1 then Q - Q / S * (S - 1) else Q / S

/-- Ambient hypotheses for the partition-exactness development: prime
modulus, a generator of known order `Q`, the no-wrap bound, and the
configuration coherence conditions tying the decoder parameters to the
scan bounds. -/
structure C1Hyps (env : scan_env_t) (p g Q b : Nat) : Prop where
  hp : Nat.Prime p
  hg1 : 0 < g
  hg2 : g < p
  hQ0 : 0 < Q
  hgQ : g ^ Q % p = 1
  hgmin : ∀ e, 0 < e → e < Q → g ^ e % p ≠ 1
  hw : (p - 1) * (p - 1) < 2 ^ 64
  hb : b ≤ 16
  hpc : env.port_count ≤ 2 ^ b
  hip : env.max_ip_index ≤ 2 ^ 32
  hmti : ∀ a, a < env.max_ip_index → ∀ c, c < env.port_count →
    a * 2 ^ b + c + 1 < env.max_target_index

/-! ### Basic arithmetic and decoding lemmas -/

theorem U64_eq : U64 = 18446744073709551616 := by norm_num [U64]

/-- The 64-bit decrement agrees with mathematical subtraction on
`[1, 2 ^ 64)`. -/
theorem dec64_eq {v : Nat} (h1 : 1 ≤ v) (h2 : v < U64) : dec64 v = v - 1 := by
  unfold dec64
  rw [U64_eq]
  rw [U64_eq] at h2
  omega

/-- The `uint32_t` cast in `extract_ip` is the identity when the shifted
value fits. -/
theorem extract_ip_eq {x b : Nat} (h : x / 2 ^ b < 2 ^ 32) :
    extract_ip x b = x / 2 ^ b := by
  unfold extract_ip
  rw [Nat.shiftRight_eq_div_pow]
  exact Nat.mod_eq_of_lt h

/-- For `b ≤ 16` the mask-and-cast in `extract_port` computes `x % 2 ^ b`. -/
theorem extract_port_eq {x : Nat} {b : Nat} (hb : b ≤ 16) :
    extract_port x b = x % 2 ^ b := by
  unfold extract_port
  have h1 : (1 : Nat) <<< b = 2 ^ b := by
    rw [Nat.shiftLeft_eq, one_mul]
  rw [h1, Nat.and_pow_two_sub_one_eq_mod]
  exact Nat.mod_eq_of_lt
    (lt_of_lt_of_le (Nat.mod_lt _ (Nat.two_pow_pos b))
      (Nat.pow_le_pow_right (by norm_num) hb))

/-- Decoding is injective on values in `[1, 2 ^ 32]` for `b ≤ 16`. -/
theorem decode_pair_inj {b v w : Nat} (hb : b ≤ 16)
    (hv1 : 1 ≤ v) (hv2 : v ≤ 2 ^ 32) (hw1 : 1 ≤ w) (hw2 : w ≤ 2 ^ 32)
    (h : decode_pair b v = decode_pair b w) : v = w := by
  have hU : (2 : Nat) ^ 32 < U64 := by rw [U64_eq]; norm_num
  unfold decode_pair at h
  rw [dec64_eq hv1 (lt_of_le_of_lt hv2 hU), dec64_eq hw1 (lt_of_le_of_lt hw2 hU)] at h
  have hvd : (v - 1) / 2 ^ b < 2 ^ 32 := by
    have := Nat.div_le_self (v - 1) (2 ^ b)
    omega
  have hwd : (w - 1) / 2 ^ b < 2 ^ 32 := by
    have := Nat.div_le_self (w - 1) (2 ^ b)
    omega
  rw [extract_ip_eq hvd, extract_ip_eq hwd, extract_port_eq hb, extract_port_eq hb]
    at h
  rw [Prod.mk.injEq] at h
  obtain ⟨h1, h2⟩ := h
  have hv3 := Nat.div_add_mod (v - 1) (2 ^ b)
  have hw3 := Nat.div_add_mod (w - 1) (2 ^ b)
  rw [h1, h2] at hv3
  omega

/-! ### Claim C2: the advance multiplication wraps at 64 bits -/

/-- C2 (code evaluation at the failing input): with modulus
`4294967311` (prime) and `current = factor = 2 ^ 32`, both in
`[1, modulus)`, `shard_get_next_elem` computes `0`, while the exact value
`(current * factor) mod modulus` is `225`: the `uint64_t` product wraps
before the reduction. -/
theorem C2_overflow_evaluation :
    1 ≤ (4294967296 : Nat) ∧ (4294967296 : Nat) < 4294967311 ∧
    (shard_get_next_elem ⟨⟨1, 2, 4294967296, 4294967311⟩, 0, 4294967296, 0, 0,
      none⟩).2 = 0 ∧
    (4294967296 : Nat) * 4294967296 % 4294967311 = 225 := by
  refine ⟨by norm_num, by norm_num, by decide, by norm_num⟩

/-! ### Claim C3: decode round-trip -/

/-- C3 (counterexample): the round-trip fails as stated.  Take
`modulus = 2 ^ 64 - 1`, `v = 2 ^ 32 + 1 ∈ [1, modulus)` and `b = 0`: the
`uint32_t` narrowing in `extract_ip` loses the high bits, so
`(ip <<< b) ||| port = 0 ≠ v - 1`. -/
theorem C3_roundtrip_counterexample :
    1 ≤ (4294967297 : Nat) ∧ (4294967297 : Nat) < 18446744073709551615 ∧
    ¬ ((extract_ip (4294967297 - 1) 0 <<< 0) ||| extract_port (4294967297 - 1) 0 =
        4294967297 - 1) := by
  refine ⟨by norm_num, by norm_num, by decide⟩

/-- C3 (amended): for every `v ∈ [1, modulus)` whose decoded fields
survive the narrowing casts — `v ≤ 2 ^ (32 + b)` so the ip index fits
`uint32_t`, and `b ≤ 16` so the port survives the `uint16_t` cast — the
round-trip identity `(ip <<< b) ||| port = v - 1` holds. -/
theorem C3_roundtrip (modulus v b : Nat) (h1 : 1 ≤ v) (h2 : v < modulus)
    (h3 : modulus ≤ 2 ^ 64) (hb : b ≤ 16) (hfit : v ≤ 2 ^ (32 + b)) :
    (extract_ip (v - 1) b <<< b) ||| extract_port (v - 1) b = v - 1 := by
  have hdiv : (v - 1) / 2 ^ b < 2 ^ 32 := by
    rw [Nat.div_lt_iff_lt_mul (Nat.two_pow_pos b), ← Nat.pow_add]
    omega
  rw [extract_ip_eq hdiv, extract_port_eq hb, Nat.shiftLeft_eq,
    Nat.mul_comm ((v - 1) / 2 ^ b),
    ← Nat.mul_add_lt_is_or (Nat.mod_lt _ (Nat.two_pow_pos b)),
    Nat.div_add_mod]

/-- C3 (witness): the amended round-trip at `modulus = 100`, `v = 7`,
`b = 2`. -/
theorem C3_roundtrip_witness :
    (extract_ip (7 - 1) 2 <<< 2) ||| extract_port (7 - 1) 2 = 7 - 1 :=
  C3_roundtrip 100 7 2 (by norm_num) (by norm_num) (by norm_num) (by norm_num)
    (by norm_num)

/-! ### Claim C10: DONE is absorbing -/

/-- C10: advancing an exhausted shard is a no-op: when `current` is the
DONE sentinel, `shard_get_next_target` returns the very same shard record
with a zeroed DONE target, for any fuel. -/
theorem C10_done_absorbing (env : scan_env_t) (fuel : Nat) (s : shard_t)
    (h : s.current = ZMAP_SHARD_DONE) :
    shard_get_next_target env fuel s = some (s, ⟨0, 0, shard_status.DONE⟩) := by
  unfold shard_get_next_target
  rw [if_pos h]

/-- C10 (witness): concrete exhausted shard. -/
theorem C10_done_absorbing_witness :
    shard_get_next_target ⟨10, 10, 10⟩ 3 ⟨⟨5, 9, 2, 23⟩, 2, 0, 7, 1, some 4⟩ =
      some (⟨⟨5, 9, 2, 23⟩, 2, 0, 7, 1, some 4⟩, ⟨0, 0, shard_status.DONE⟩) :=
  C10_done_absorbing ⟨10, 10, 10⟩ 3 ⟨⟨5, 9, 2, 23⟩, 2, 0, 7, 1, some 4⟩ rfl

/-! ### Loop-body characterization -/

theorem shard_loop_body_done (env : scan_env_t) (s : shard_t)
    (h : stepVal s.params s.current = s.params.last) :
    shard_loop_body env s =
      ({ s with current := ZMAP_SHARD_DONE, iterations := s.iterations + 1 },
        step_outcome.done) := by
  unfold shard_loop_body shard_get_next_elem
  simp only [h, if_pos]

theorem shard_loop_body_skip_high (env : scan_env_t) (s : shard_t)
    (h1 : stepVal s.params s.current ≠ s.params.last)
    (h2 : env.max_target_index ≤ stepVal s.params s.current) :
    shard_loop_body env s =
      ({ s with current := stepVal s.params s.current }, step_outcome.skip) := by
  unfold shard_loop_body shard_get_next_elem
  simp only [h1, if_false, h2, if_pos, if_neg]

theorem shard_loop_body_emit (env : scan_env_t) (s : shard_t)
    (h1 : stepVal s.params s.current ≠ s.params.last)
    (h2 : stepVal s.params s.current < env.max_target_index)
    (h3 : extract_ip (dec64 (stepVal s.params s.current)) s.bits_for_port <
            env.max_ip_index ∧
          extract_port (dec64 (stepVal s.params s.current)) s.bits_for_port <
            env.port_count) :
    shard_loop_body env s =
      ({ s with
          current := stepVal s.params s.current,
          iterations := s.iterations + 1 },
        step_outcome.emit
          (extract_ip (dec64 (stepVal s.params s.current)) s.bits_for_port)
          (extract_port (dec64 (stepVal s.params s.current)) s.bits_for_port)) := by
  unfold shard_loop_body shard_get_next_elem
  simp only [h1, if_false, if_neg, Nat.not_le.mpr h2, h3.1, h3.2, and_self,
    if_pos, if_true]

theorem shard_loop_body_skip_oob (env : scan_env_t) (s : shard_t)
    (h1 : stepVal s.params s.current ≠ s.params.last)
    (h2 : stepVal s.params s.current < env.max_target_index)
    (h3 : ¬ (extract_ip (dec64 (stepVal s.params s.current)) s.bits_for_port <
              env.max_ip_index ∧
            extract_port (dec64 (stepVal s.params s.current)) s.bits_for_port <
              env.port_count)) :
    shard_loop_body env s =
      ({ s with current := stepVal s.params s.current }, step_outcome.skip) := by
  unfold shard_loop_body shard_get_next_elem
  simp only [h1, if_false, if_neg, Nat.not_le.mpr h2, h3, if_true]

/-- Skipped candidates never change `iterations` (claim C6's silent
discard). -/
theorem shard_loop_body_skip_iterations (env : scan_env_t) (s1 s2 : shard_t)
    (h : shard_loop_body env s1 = (s2, step_outcome.skip)) :
    s2.iterations = s1.iterations ∧ s2.params = s1.params ∧
      s2.bits_for_port = s1.bits_for_port ∧
      s2.current = stepVal s1.params s1.current := by
  by_cases hlast : stepVal s1.params s1.current = s1.params.last
  · rw [shard_loop_body_done env s1 hlast] at h
    exact absurd (congrArg Prod.snd h) (by simp)
  · by_cases hmti : env.max_target_index ≤ stepVal s1.params s1.current
    · rw [shard_loop_body_skip_high env s1 hlast hmti] at h
      have := congrArg Prod.fst h
      simp only at this
      rw [← this]
      exact ⟨rfl, rfl, rfl, rfl⟩
    · by_cases hb : extract_ip (dec64 (stepVal s1.params s1.current))
          s1.bits_for_port < env.max_ip_index ∧
          extract_port (dec64 (stepVal s1.params s1.current)) s1.bits_for_port <
            env.port_count
      · rw [shard_loop_body_emit env s1 hlast (Nat.not_le.mp hmti) hb] at h
        exact absurd (congrArg Prod.snd h) (by simp)
      · rw [shard_loop_body_skip_oob env s1 hlast (Nat.not_le.mp hmti) hb] at h
        have := congrArg Prod.fst h
        simp only at this
        rw [← this]
        exact ⟨rfl, rfl, rfl, rfl⟩

/-! ### Claim C7: natural termination at the arc end -/

/-- C7: when the shard is not yet DONE and the advanced value equals
`params.last`, `shard_get_next_target` sets `current` to the DONE
sentinel, increments `iterations` by exactly one, and returns a zeroed
DONE target — on the first loop iteration, for any positive fuel. -/
theorem C7_natural_termination (env : scan_env_t) (fuel : Nat) (s : shard_t)
    (hcur : s.current ≠ ZMAP_SHARD_DONE)
    (hlast : stepVal s.params s.current = s.params.last) :
    shard_get_next_target env (fuel + 1) s =
      some ({ s with current := ZMAP_SHARD_DONE, iterations := s.iterations + 1 },
        ⟨0, 0, shard_status.DONE⟩) := by
  unfold shard_get_next_target
  rw [if_neg hcur]
  unfold shard_next_loop
  rw [shard_loop_body_done env s hlast]

/-- C7 (witness): at modulus 23, factor 2, `current = 16`, `last = 9`:
`16 * 2 % 23 = 9 = last`. -/
theorem C7_natural_termination_witness :
    (16 : Nat) ≠ ZMAP_SHARD_DONE ∧
    stepVal ⟨5, 9, 2, 23⟩ 16 = 9 ∧
    shard_get_next_target ⟨100, 50, 4⟩ 8 ⟨⟨5, 9, 2, 23⟩, 2, 16, 3, 0, none⟩ =
      some (⟨⟨5, 9, 2, 23⟩, 2, ZMAP_SHARD_DONE, 4, 0, none⟩,
        ⟨0, 0, shard_status.DONE⟩) :=
  ⟨by decide, by decide,
    C7_natural_termination ⟨100, 50, 4⟩ 7 ⟨⟨5, 9, 2, 23⟩, 2, 16, 3, 0, none⟩
      (by decide) (by decide)⟩

/-- Master characterization of the `while (1)` loop of
`shard_get_next_target`: a successful return happens at the first raw step
`n` whose candidate is the arc end or an eligible target; all earlier
candidates are silently skipped; `iterations` grows by exactly one and all
other fields except `current` are preserved. -/
theorem shard_next_loop_spec (env : scan_env_t) :
    ∀ fuel s s' t, shard_next_loop env fuel s = some (s', t) →
    ∃ n, 1 ≤ n ∧ n ≤ fuel ∧
      (∀ m, 1 ≤ m → m < n → stepIter s.params m s.current ≠ s.params.last ∧
        ¬ emit_ok env s.bits_for_port (stepIter s.params m s.current)) ∧
      s'.params = s.params ∧ s'.bits_for_port = s.bits_for_port ∧
      s'.iterations = s.iterations + 1 ∧ s'.thread_id = s.thread_id ∧
      s'.max_targets = s.max_targets ∧
      ((stepIter s.params n s.current = s.params.last ∧
          s'.current = ZMAP_SHARD_DONE ∧ t = ⟨0, 0, shard_status.DONE⟩) ∨
        (stepIter s.params n s.current ≠ s.params.last ∧
          emit_ok env s.bits_for_port (stepIter s.params n s.current) ∧
          s'.current = stepIter s.params n s.current ∧
          t = ⟨extract_ip (dec64 (stepIter s.params n s.current)) s.bits_for_port,
               extract_port (dec64 (stepIter s.params n s.current)) s.bits_for_port,
               shard_status.OK⟩)) := by
  intro fuel
  induction fuel with
  | zero => intro s s' t h; exact absurd h (by simp [shard_next_loop])
  | succ f ih =>
    intro s s' t h
    rw [shard_next_loop] at h
    by_cases hlast : stepVal s.params s.current = s.params.last
    · rw [shard_loop_body_done env s hlast] at h
      simp only [Option.some.injEq, Prod.mk.injEq] at h
      obtain ⟨hs', ht⟩ := h
      refine ⟨1, le_refl 1, by omega, by omega, ?_⟩
      rw [← hs']
      exact ⟨rfl, rfl, rfl, rfl, rfl, Or.inl ⟨hlast, rfl, ht.symm⟩⟩
    · by_cases hmti : env.max_target_index ≤ stepVal s.params s.current
      · rw [shard_loop_body_skip_high env s hlast hmti] at h
        obtain ⟨n, hn1, hn2, hmin, hpar, hbits, hiter, htid, hmax, hres⟩ :=
          ih _ s' t h
        refine ⟨n + 1, by omega, by omega, ?_, hpar, hbits, hiter, htid, hmax, ?_⟩
        · intro m hm1 hm2
          match m, hm1 with
          | 1, _ =>
            refine ⟨hlast, ?_⟩
            intro hok
            exact absurd hok.1 (Nat.not_lt.mpr hmti)
          | m' + 2, _ =>
            have := hmin (m' + 1) (by omega) (by omega)
            exact this
        · exact hres
      · by_cases hb : extract_ip (dec64 (stepVal s.params s.current))
            s.bits_for_port < env.max_ip_index ∧
            extract_port (dec64 (stepVal s.params s.current)) s.bits_for_port <
              env.port_count
        · rw [shard_loop_body_emit env s hlast (Nat.not_le.mp hmti) hb] at h
          simp only [Option.some.injEq, Prod.mk.injEq] at h
          obtain ⟨hs', ht⟩ := h
          refine ⟨1, le_refl 1, by omega, by omega, ?_⟩
          rw [← hs']
          refine ⟨rfl, rfl, rfl, rfl, rfl, Or.inr ⟨hlast, ?_, rfl, ?_⟩⟩
          · exact ⟨Nat.not_le.mp hmti, hb⟩
          · rw [← ht]
            rfl
        · rw [shard_loop_body_skip_oob env s hlast (Nat.not_le.mp hmti) hb] at h
          obtain ⟨n, hn1, hn2, hmin, hpar, hbits, hiter, htid, hmax, hres⟩ :=
            ih _ s' t h
          refine ⟨n + 1, by omega, by omega, ?_, hpar, hbits, hiter, htid, hmax, ?_⟩
          · intro m hm1 hm2
            match m, hm1 with
            | 1, _ =>
              refine ⟨hlast, ?_⟩
              intro hok
              exact absurd ⟨hok.2.1, hok.2.2⟩ hb
            | m' + 2, _ =>
              exact hmin (m' + 1) (by omega) (by omega)
          · exact hres

/-! ### Claim C6: advance filtering and counting -/

/-- C6: on a shard that is not already DONE, every successful
`shard_get_next_target` call (returning OK or DONE) increments
`iterations` by exactly one; a call returns OK only when the candidate it
stopped on decodes to `ip_index < max_ip_index` and
`port_index < port_count`; and skipped candidates leave `iterations`
unchanged. -/
theorem C6_filter_and_count (env : scan_env_t) (fuel : Nat) (s s' : shard_t)
    (t : target_t) (hcur : s.current ≠ ZMAP_SHARD_DONE)
    (hret : shard_get_next_target env fuel s = some (s', t)) :
    s'.iterations = s.iterations + 1 ∧
    (t.status = shard_status.OK →
      extract_ip (dec64 s'.current) s'.bits_for_port < env.max_ip_index ∧
      extract_port (dec64 s'.current) s'.bits_for_port < env.port_count) ∧
    (∀ s1 s2, shard_loop_body env s1 = (s2, step_outcome.skip) →
      s2.iterations = s1.iterations) := by
  unfold shard_get_next_target at hret
  rw [if_neg hcur] at hret
  obtain ⟨n, _, _, _, _, hbits, hiter, _, _, hres⟩ :=
    shard_next_loop_spec env fuel s s' t hret
  refine ⟨hiter, ?_, fun s1 s2 h => (shard_loop_body_skip_iterations env s1 s2 h).1⟩
  intro hok
  rcases hres with ⟨_, _, ht⟩ | ⟨_, hemit, hcur', _⟩
  · rw [ht] at hok
    exact absurd hok (by simp)
  · rw [hcur', hbits]
    exact ⟨hemit.2.1, hemit.2.2⟩

/-- C6 (witness): modulus 23, factor 2, `current = 1`, `last = 9`,
`bits_for_port = 2`: the advance lands on candidate 2, which decodes to
`(0, 1)`, in bounds for `max_ip_index = 5`, `port_count = 4`. -/
theorem C6_filter_and_count_witness :
    (1 : Nat) ≠ ZMAP_SHARD_DONE ∧
    shard_get_next_target ⟨100, 5, 4⟩ 1 ⟨⟨1, 9, 2, 23⟩, 2, 1, 0, 0, none⟩ =
      some (⟨⟨1, 9, 2, 23⟩, 2, 2, 1, 0, none⟩, ⟨0, 1, shard_status.OK⟩) ∧
    ((⟨⟨1, 9, 2, 23⟩, 2, 2, 1, 0, none⟩ : shard_t).iterations = 0 + 1 ∧
    ((⟨0, 1, shard_status.OK⟩ : target_t).status = shard_status.OK →
      extract_ip (dec64 2) 2 < 5 ∧ extract_port (dec64 2) 2 < 4) ∧
    (∀ s1 s2, shard_loop_body ⟨100, 5, 4⟩ s1 = (s2, step_outcome.skip) →
      s2.iterations = s1.iterations)) :=
  ⟨by decide, by decide,
    C6_filter_and_count ⟨100, 5, 4⟩ 1 ⟨⟨1, 9, 2, 23⟩, 2, 1, 0, 0, none⟩
      ⟨⟨1, 9, 2, 23⟩, 2, 2, 1, 0, none⟩ ⟨0, 1, shard_status.OK⟩ (by decide)
      (by decide)⟩

/-! ### Claim C5: construction postcondition (roll to valid) -/

/-- C5: immediately after `shard_init` returns a shard, its cursor is
either the DONE sentinel or decodes in bounds; moreover, when the raw
first element decodes in bounds it is kept unchanged, and otherwise
construction advances via the per-step generator, silently skipping every
earlier ineligible candidate, to the first in-bounds element — or to DONE
if the advance hits the arc end first. -/
theorem C5_roll_to_valid (env : scan_env_t) (fuel : Nat)
    (shard_idx num_shards thread_idx num_threads : Nat)
    (max_total_targets bits_for_port : Nat) (cycle : cycle_t) (s : shard_t)
    (h : shard_init env fuel shard_idx num_shards thread_idx num_threads
      max_total_targets bits_for_port cycle = some s) :
    (s.current = ZMAP_SHARD_DONE ∨
      (extract_ip (dec64 s.current) s.bits_for_port < env.max_ip_index ∧
       extract_port (dec64 s.current) s.bits_for_port < env.port_count)) ∧
    (∀ s0, shard_init_raw shard_idx num_shards thread_idx num_threads
        max_total_targets bits_for_port cycle = some s0 →
      ((dec64 s0.current >>> s0.bits_for_port < env.max_ip_index ∧
        extract_port (dec64 s0.current) s0.bits_for_port < env.port_count) →
        s = s0) ∧
      (¬ (dec64 s0.current >>> s0.bits_for_port < env.max_ip_index ∧
          extract_port (dec64 s0.current) s0.bits_for_port < env.port_count) →
        s0.current ≠ ZMAP_SHARD_DONE →
        ∃ n, 1 ≤ n ∧
          (∀ m, 1 ≤ m → m < n →
            stepIter s0.params m s0.current ≠ s0.params.last ∧
            ¬ emit_ok env s0.bits_for_port (stepIter s0.params m s0.current)) ∧
          ((stepIter s0.params n s0.current = s0.params.last ∧
              s.current = ZMAP_SHARD_DONE) ∨
            (stepIter s0.params n s0.current ≠ s0.params.last ∧
              emit_ok env s0.bits_for_port (stepIter s0.params n s0.current) ∧
              s.current = stepIter s0.params n s0.current)))) := by
  unfold shard_init at h
  cases hraw : shard_init_raw shard_idx num_shards thread_idx num_threads
      max_total_targets bits_for_port cycle with
  | none => rw [hraw] at h; exact absurd h (by simp)
  | some s0 =>
    rw [hraw] at h
    dsimp only at h
    unfold shard_roll_to_valid at h
    dsimp only at h
    by_cases hB : dec64 s0.current >>> s0.bits_for_port < env.max_ip_index ∧
        extract_port (dec64 s0.current) s0.bits_for_port < env.port_count
    · rw [if_pos hB] at h
      have hs : s0 = s := Option.some.inj h
      subst hs
      constructor
      · right
        refine ⟨lt_of_le_of_lt ?_ hB.1, hB.2⟩
        unfold extract_ip
        exact Nat.mod_le _ _
      · intro s0' hs0'
        have he : s0 = s0' := Option.some.inj hs0'
        subst he
        exact ⟨fun _ => rfl, fun hnB _ => absurd hB hnB⟩
    · rw [if_neg hB] at h
      unfold shard_get_next_target at h
      by_cases h0 : s0.current = ZMAP_SHARD_DONE
      · rw [if_pos h0] at h
        simp only [Option.map_some', Option.some.injEq] at h
        subst h
        refine ⟨Or.inl h0, ?_⟩
        intro s0' hs0'
        have he : s0 = s0' := Option.some.inj hs0'
        subst he
        exact ⟨fun hBB => absurd hBB hB, fun _ h0' => absurd h0 h0'⟩
      · rw [if_neg h0] at h
        cases hnt : shard_next_loop env fuel s0 with
        | none => rw [hnt] at h; exact absurd h (by simp)
        | some pr =>
          rw [hnt] at h
          simp only [Option.map_some', Option.some.injEq] at h
          obtain ⟨n, hn1, _, hmin, _, hbits, _, _, _, hres⟩ :=
            shard_next_loop_spec env fuel s0 pr.1 pr.2 (by rw [hnt])
          subst h
          constructor
          · rcases hres with ⟨_, hcur, _⟩ | ⟨_, hemit, hcur, _⟩
            · exact Or.inl hcur
            · right
              rw [hcur, hbits]
              exact ⟨hemit.2.1, hemit.2.2⟩
          · intro s0' hs0'
            have he : s0 = s0' := Option.some.inj hs0'
            subst he
            refine ⟨fun hBB => absurd hBB hB, fun _ _ => ⟨n, hn1, hmin, ?_⟩⟩
            rcases hres with ⟨hl, hcur, _⟩ | ⟨hl, hemit, hcur, _⟩
            · exact Or.inl ⟨hl, hcur⟩
            · exact Or.inr ⟨hl, hemit, hcur⟩

/-- C5 (witness): the spec §8 scenario, subshard 0 of the 23-element
group: `first = 5 ^ 0 % 23 = 1` decodes to `(0, 0)`, already in bounds, so
the cursor is kept. -/
theorem C5_roll_to_valid_witness :
    shard_init ⟨21, 5, 4⟩ 22 0 1 0 2 0 2 ⟨⟨23, 22⟩, 5, 22, 0⟩ =
      some ⟨⟨1, 22, 5, 23⟩, 2, 1, 0, 0, none⟩ ∧
    (((⟨⟨1, 22, 5, 23⟩, 2, 1, 0, 0, none⟩ : shard_t).current = ZMAP_SHARD_DONE ∨
      (extract_ip (dec64 1) 2 < 5 ∧ extract_port (dec64 1) 2 < 4)) ∧
    (∀ s0, shard_init_raw 0 1 0 2 0 2 ⟨⟨23, 22⟩, 5, 22, 0⟩ = some s0 →
      ((dec64 s0.current >>> s0.bits_for_port < 5 ∧
        extract_port (dec64 s0.current) s0.bits_for_port < 4) →
        (⟨⟨1, 22, 5, 23⟩, 2, 1, 0, 0, none⟩ : shard_t) = s0) ∧
      (¬ (dec64 s0.current >>> s0.bits_for_port < 5 ∧
          extract_port (dec64 s0.current) s0.bits_for_port < 4) →
        s0.current ≠ ZMAP_SHARD_DONE →
        ∃ n, 1 ≤ n ∧
          (∀ m, 1 ≤ m → m < n →
            stepIter s0.params m s0.current ≠ s0.params.last ∧
            ¬ emit_ok ⟨21, 5, 4⟩ s0.bits_for_port (stepIter s0.params m s0.current)) ∧
          ((stepIter s0.params n s0.current = s0.params.last ∧
              (⟨⟨1, 22, 5, 23⟩, 2, 1, 0, 0, none⟩ : shard_t).current =
                ZMAP_SHARD_DONE) ∨
            (stepIter s0.params n s0.current ≠ s0.params.last ∧
              emit_ok ⟨21, 5, 4⟩ s0.bits_for_port (stepIter s0.params n s0.current) ∧
              (⟨⟨1, 22, 5, 23⟩, 2, 1, 0, 0, none⟩ : shard_t).current =
                stepIter s0.params n s0.current))))) :=
  ⟨by decide,
    C5_roll_to_valid ⟨21, 5, 4⟩ 22 0 1 0 2 0 2 ⟨⟨23, 22⟩, 5, 22, 0⟩
      ⟨⟨1, 22, 5, 23⟩, 2, 1, 0, 0, none⟩ (by decide)⟩

/-! ### Modular-arithmetic range lemmas and the no-wrap regime -/

/-- When `(modulus - 1)² < 2 ^ 64`, the `uint64_t` product cannot wrap and
the advance computes the exact modular product. -/
theorem stepVal_no_wrap (pr : shard_params_t) (x : Nat) (hx : x < pr.modulus)
    (hf : pr.factor < pr.modulus)
    (hw : (pr.modulus - 1) * (pr.modulus - 1) < 2 ^ 64) :
    stepVal pr x = x * pr.factor % pr.modulus := by
  unfold stepVal
  have hb : x * pr.factor ≤ (pr.modulus - 1) * (pr.modulus - 1) :=
    Nat.mul_le_mul (by omega) (by omega)
  rw [Nat.mod_eq_of_lt (show x * pr.factor < U64 by unfold U64; omega)]

/-- A product of two units mod a prime stays a unit: in `[1, p)`. -/
theorem mul_mod_prime_range (p x f : Nat) (hp : Nat.Prime p) (hx1 : 1 ≤ x)
    (hx2 : x < p) (hf1 : 1 ≤ f) (hf2 : f < p) :
    1 ≤ x * f % p ∧ x * f % p < p := by
  refine ⟨?_, Nat.mod_lt _ hp.pos⟩
  by_contra hc
  have h0 : x * f % p = 0 := by omega
  rcases (Nat.Prime.dvd_mul hp).mp (Nat.dvd_of_mod_eq_zero h0) with hd | hd
  · exact absurd (Nat.le_of_dvd (by omega) hd) (by omega)
  · exact absurd (Nat.le_of_dvd (by omega) hd) (by omega)

/-- A power of a unit mod a prime stays a unit: in `[1, p)`. -/
theorem pow_mod_prime_range (p g e : Nat) (hp : Nat.Prime p) (hg1 : 1 ≤ g)
    (hg2 : g < p) : 1 ≤ g ^ e % p ∧ g ^ e % p < p := by
  refine ⟨?_, Nat.mod_lt _ hp.pos⟩
  by_contra hc
  have h0 : g ^ e % p = 0 := by omega
  have hd := hp.dvd_of_dvd_pow (Nat.dvd_of_mod_eq_zero h0)
  exact absurd (Nat.le_of_dvd (by omega) hd) (by omega)

/-- In the no-wrap regime the advance keeps the cursor in `[1, p)`. -/
theorem stepVal_range (p : Nat) (pr : shard_params_t) (x : Nat)
    (hp : Nat.Prime p) (hw : (p - 1) * (p - 1) < 2 ^ 64)
    (hmod : pr.modulus = p) (hf1 : 1 ≤ pr.factor) (hf2 : pr.factor < p)
    (hx1 : 1 ≤ x) (hx2 : x < p) :
    1 ≤ stepVal pr x ∧ stepVal pr x < p := by
  rw [stepVal_no_wrap pr x (by omega) (by omega) (by rw [hmod]; exact hw), hmod]
  exact mul_mod_prime_range p x pr.factor hp hx1 hx2 hf1 hf2

/-- Iterated advance keeps the cursor in `[1, p)` in the no-wrap regime. -/
theorem stepIter_range (p : Nat) (pr : shard_params_t)
    (hp : Nat.Prime p) (hw : (p - 1) * (p - 1) < 2 ^ 64)
    (hmod : pr.modulus = p) (hf1 : 1 ≤ pr.factor) (hf2 : pr.factor < p) :
    ∀ n x, 1 ≤ x → x < p → 1 ≤ stepIter pr n x ∧ stepIter pr n x < p := by
  intro n
  induction n with
  | zero => intro x hx1 hx2; exact ⟨hx1, hx2⟩
  | succ m ih =>
    intro x hx1 hx2
    rw [stepIter]
    have hs := stepVal_range p pr x hp hw hmod hf1 hf2 hx1 hx2
    exact ih (stepVal pr x) hs.1 hs.2

/-- Fields of a successfully constructed raw shard. -/
theorem shard_init_raw_fields (shard_idx num_shards thread_idx num_threads : Nat)
    (M b : Nat) (cycle : cycle_t) (s0 : shard_t)
    (h : shard_init_raw shard_idx num_shards thread_idx num_threads M b cycle =
      some s0) :
    s0.params.factor = cycle.generator ∧
    s0.params.modulus = cycle.group.prime ∧
    s0.bits_for_port = b ∧ s0.iterations = 0 ∧
    s0.current = s0.params.first ∧
    (∃ e1, s0.params.first = cycle.generator ^ e1 % cycle.group.prime) ∧
    (∃ e2, s0.params.last = cycle.generator ^ e2 % cycle.group.prime) := by
  unfold shard_init_raw at h
  by_cases hA : 0 < num_shards ∧ 0 < num_threads ∧ shard_idx < num_shards ∧
      thread_idx < num_threads
  · rw [if_pos hA] at h
    dsimp only at h
    by_cases hB : num_shards * num_threads < cycle.order ∧
        (M = 0 ∨ num_shards * num_threads ≤ M)
    · rw [if_pos hB] at h
      have he := Option.some.inj h
      subst he
      refine ⟨rfl, rfl, rfl, rfl, rfl, ⟨_, rfl⟩, ⟨_, rfl⟩⟩
    · rw [if_neg hB] at h
      exact absurd h (by simp)
  · rw [if_neg hA] at h
    exact absurd h (by simp)

/-! ### Primality certificate for the zmap prime 4294967311 = 2 ^ 32 + 15 -/

theorem powModAux_correct (fuel : Nat) : ∀ b e m : Nat, e < 2 ^ fuel →
    powModAux fuel b e m = b ^ e % m := by
  induction fuel with
  | zero =>
    intro b e m he
    have h0 : e = 0 := by simpa using he
    simp [powModAux, h0]
  | succ n ih =>
    intro b e m he
    rw [powModAux]
    by_cases h0 : e = 0
    · simp [h0]
    · simp only [h0, if_false]
      have he2 : e / 2 < 2 ^ n := by
        have h2 : (2 : Nat) ^ (n + 1) = 2 ^ n * 2 := by ring
        omega
      have hrec := ih (b * b % m) (e / 2) m he2
      have hpow : (b * b % m) ^ (e / 2) % m = (b * b) ^ (e / 2) % m := by
        rw [← Nat.pow_mod]
      have hbb : (b * b) ^ (e / 2) = b ^ (2 * (e / 2)) := by
        rw [two_mul, pow_add, mul_pow]
      by_cases hpar : e % 2 = 1
      · rw [if_pos hpar, hrec, hpow, hbb, Nat.mod_mul_mod, ← pow_succ]
        have h3 : 2 * (e / 2) + 1 = e := by omega
        rw [h3]
      · rw [if_neg hpar, hrec, hpow, hbb]
        have h3 : 2 * (e / 2) = e := by omega
        rw [h3]

theorem powMod_correct (b e m : Nat) (he : e < 2 ^ 64) : powMod b e m = b ^ e % m :=
  powModAux_correct 64 b e m he

theorem zmod_pow_of_powMod (p x e : Nat) (he : e < 2 ^ 64) :
    ((x : ZMod p)) ^ e = ((powMod x e p : Nat) : ZMod p) := by
  rw [powMod_correct x e p he, ZMod.natCast_mod, Nat.cast_pow]

/-- Lucas primality certificate for `4294967311`, the prime zmap pairs
with the full IPv4 space; `4294967310 = 2 * 3 ^ 2 * 5 * 131 * 364289` and
`3` is a primitive root. -/
theorem prime_4294967311 : Nat.Prime 4294967311 := by
  haveI : Fact (1 < 4294967311) := ⟨by norm_num⟩
  apply lucas_primality 4294967311 ((3 : Nat) : ZMod 4294967311)
  · rw [show (4294967311 : Nat) - 1 = 4294967310 from rfl,
      zmod_pow_of_powMod 4294967311 3 4294967310 (by norm_num),
      show powMod 3 4294967310 4294967311 = 1 from by decide]
    exact Nat.cast_one
  · intro q hq hdvd
    have hset : q = 2 ∨ q = 3 ∨ q = 5 ∨ q = 131 ∨ q = 364289 := by
      have h131 : Nat.Prime 131 := by norm_num
      have h364289 : Nat.Prime 364289 := by norm_num
      have hd : q ∣ 2 * (3 ^ 2 * (5 * (131 * 364289))) := by
        convert hdvd using 1
      rcases (Nat.Prime.dvd_mul hq).mp hd with h | h
      · exact Or.inl ((Nat.prime_dvd_prime_iff_eq hq (by norm_num)).mp h)
      rcases (Nat.Prime.dvd_mul hq).mp h with h | h
      · exact Or.inr (Or.inl ((Nat.prime_dvd_prime_iff_eq hq (by norm_num)).mp
          (hq.dvd_of_dvd_pow h)))
      rcases (Nat.Prime.dvd_mul hq).mp h with h | h
      · exact Or.inr (Or.inr (Or.inl
          ((Nat.prime_dvd_prime_iff_eq hq (by norm_num)).mp h)))
      rcases (Nat.Prime.dvd_mul hq).mp h with h | h
      · exact Or.inr (Or.inr (Or.inr (Or.inl
          ((Nat.prime_dvd_prime_iff_eq hq h131).mp h))))
      · exact Or.inr (Or.inr (Or.inr (Or.inr
          ((Nat.prime_dvd_prime_iff_eq hq h364289).mp h))))
    have hval : ∀ c : Nat, c < 4294967311 → c ≠ 1 →
        ((c : Nat) : ZMod 4294967311) ≠ 1 := by
      intro c hc hc1 h
      have hv := congrArg ZMod.val h
      rw [ZMod.val_cast_of_lt hc, ZMod.val_one] at hv
      exact hc1 hv
    rcases hset with rfl | rfl | rfl | rfl | rfl
    · rw [show (4294967311 : Nat) - 1 = 4294967310 from rfl,
        show (4294967310 : Nat) / 2 = 2147483655 from rfl,
        zmod_pow_of_powMod 4294967311 3 2147483655 (by norm_num),
        show powMod 3 2147483655 4294967311 = 4294967310 from by decide]
      exact hval _ (by norm_num) (by norm_num)
    · rw [show (4294967311 : Nat) - 1 = 4294967310 from rfl,
        show (4294967310 : Nat) / 3 = 1431655770 from rfl,
        zmod_pow_of_powMod 4294967311 3 1431655770 (by norm_num),
        show powMod 3 1431655770 4294967311 = 2086193154 from by decide]
      exact hval _ (by norm_num) (by norm_num)
    · rw [show (4294967311 : Nat) - 1 = 4294967310 from rfl,
        show (4294967310 : Nat) / 5 = 858993462 from rfl,
        zmod_pow_of_powMod 4294967311 3 858993462 (by norm_num),
        show powMod 3 858993462 4294967311 = 239247313 from by decide]
      exact hval _ (by norm_num) (by norm_num)
    · rw [show (4294967311 : Nat) - 1 = 4294967310 from rfl,
        show (4294967310 : Nat) / 131 = 32786010 from rfl,
        zmod_pow_of_powMod 4294967311 3 32786010 (by norm_num),
        show powMod 3 32786010 4294967311 = 1859000016 from by decide]
      exact hval _ (by norm_num) (by norm_num)
    · rw [show (4294967311 : Nat) - 1 = 4294967310 from rfl,
        show (4294967310 : Nat) / 364289 = 11790 from rfl,
        zmod_pow_of_powMod 4294967311 3 11790 (by norm_num),
        show powMod 3 11790 4294967311 = 1338913740 from by decide]
      exact hval _ (by norm_num) (by norm_num)

/-! ### Claim C9: cursor sentinel invariant -/

/-- The advance loop of `shard_get_next_target` keeps the cursor in
`{0} ∪ [1, p)` in the no-wrap regime, reaching `0` only through the
explicit DONE assignment. -/
theorem shard_get_next_target_range (env : scan_env_t) (p : Nat)
    (hp : Nat.Prime p) (hw : (p - 1) * (p - 1) < 2 ^ 64) (fuel : Nat)
    (s s' : shard_t) (t : target_t) (hmod : s.params.modulus = p)
    (hf1 : 1 ≤ s.params.factor) (hf2 : s.params.factor < p)
    (hcur : s.current = ZMAP_SHARD_DONE ∨ (1 ≤ s.current ∧ s.current < p))
    (h : shard_get_next_target env fuel s = some (s', t)) :
    s'.current = ZMAP_SHARD_DONE ∨ (1 ≤ s'.current ∧ s'.current < p) := by
  unfold shard_get_next_target at h
  by_cases h0 : s.current = ZMAP_SHARD_DONE
  · rw [if_pos h0] at h
    have he : s = s' := congrArg Prod.fst (Option.some.inj h)
    rw [← he]
    exact Or.inl h0
  · rw [if_neg h0] at h
    obtain ⟨n, _, _, _, hpar, _, _, _, _, hres⟩ :=
      shard_next_loop_spec env fuel s s' t h
    rcases hres with ⟨_, hc, _⟩ | ⟨_, _, hc, _⟩
    · exact Or.inl hc
    · right
      rw [hc]
      rcases hcur with hcur | hcur
      · exact absurd hcur h0
      · exact stepIter_range p s.params hp hw hmod hf1 hf2 n s.current
          hcur.1 hcur.2

/-- C9 (amended): for shards over a prime modulus `p` with factor in
`[1, p)`, restricted to moduli small enough that the 64-bit product cannot
wrap (`(p - 1)² < 2 ^ 64`), the cursor invariant holds: the advance
multiplication always lands in `[1, p)` (never 0, the DONE sentinel, which
only the explicit arc-end assignment produces), `shard_get_next_target`
preserves `current ∈ {DONE} ∪ [1, p)`, and `shard_init` establishes it. -/
theorem C9_cursor_invariant (env : scan_env_t) (p : Nat) (hp : Nat.Prime p)
    (hw : (p - 1) * (p - 1) < 2 ^ 64) :
    (∀ s : shard_t, s.params.modulus = p → 1 ≤ s.params.factor →
      s.params.factor < p → 1 ≤ s.current → s.current < p →
      1 ≤ stepVal s.params s.current ∧ stepVal s.params s.current < p) ∧
    (∀ fuel : Nat, ∀ s s' : shard_t, ∀ t : target_t,
      s.params.modulus = p → 1 ≤ s.params.factor → s.params.factor < p →
      (s.current = ZMAP_SHARD_DONE ∨ (1 ≤ s.current ∧ s.current < p)) →
      shard_get_next_target env fuel s = some (s', t) →
      s'.current = ZMAP_SHARD_DONE ∨ (1 ≤ s'.current ∧ s'.current < p)) ∧
    (∀ fuel shard_idx num_shards thread_idx num_threads M b : Nat,
      ∀ cycle : cycle_t, ∀ s0 : shard_t,
      cycle.group.prime = p → 1 ≤ cycle.generator → cycle.generator < p →
      shard_init env fuel shard_idx num_shards thread_idx num_threads M b
        cycle = some s0 →
      s0.params.modulus = p ∧
      (s0.current = ZMAP_SHARD_DONE ∨ (1 ≤ s0.current ∧ s0.current < p))) := by
  refine ⟨?_, ?_, ?_⟩
  · intro s hmod hf1 hf2 hc1 hc2
    exact stepVal_range p s.params s.current hp hw hmod hf1 hf2 hc1 hc2
  · intro fuel s s' t hmod hf1 hf2 hcur h
    exact shard_get_next_target_range env p hp hw fuel s s' t hmod hf1 hf2 hcur h
  · intro fuel shard_idx num_shards thread_idx num_threads M b cycle s0 hpr
      hg1 hg2 h
    unfold shard_init at h
    cases hraw : shard_init_raw shard_idx num_shards thread_idx num_threads M b
        cycle with
    | none => rw [hraw] at h; exact absurd h (by simp)
    | some sr =>
      rw [hraw] at h
      dsimp only at h
      obtain ⟨hfac, hmod, _, _, hcf, ⟨e1, hfst⟩, _⟩ :=
        shard_init_raw_fields shard_idx num_shards thread_idx num_threads M b
          cycle sr hraw
      have hsr : 1 ≤ sr.current ∧ sr.current < p := by
        rw [hcf, hfst, hpr]
        exact pow_mod_prime_range p cycle.generator e1 hp hg1 hg2
      unfold shard_roll_to_valid at h
      dsimp only at h
      by_cases hB : dec64 sr.current >>> sr.bits_for_port < env.max_ip_index ∧
          extract_port (dec64 sr.current) sr.bits_for_port < env.port_count
      · rw [if_pos hB] at h
        have he : sr = s0 := Option.some.inj h
        subst he
        exact ⟨by rw [hmod, hpr], Or.inr hsr⟩
      · rw [if_neg hB] at h
        cases hnt : shard_get_next_target env fuel sr with
        | none => rw [hnt] at h; exact absurd h (by simp)
        | some pr =>
          rw [hnt] at h
          simp only [Option.map_some', Option.some.injEq] at h
          subst h
          have hpres := shard_get_next_target_range env p hp hw fuel sr pr.1
            pr.2 (by rw [hmod, hpr]) (by rw [hfac]; exact hg1)
            (by rw [hfac]; exact hg2) (Or.inr hsr) (by rw [hnt])
          refine ⟨?_, hpres⟩
          obtain ⟨_, _, _, _, hpar, _⟩ :=
            shard_next_loop_spec env fuel sr pr.1 pr.2 (by
              have hx := hnt
              unfold shard_get_next_target at hx
              rwa [if_neg (show ¬ sr.current = ZMAP_SHARD_DONE by
                unfold ZMAP_SHARD_DONE; omega)] at hx)
          rw [hpar, hmod, hpr]

/-- C9 (counterexample to the claim as stated): with the prime modulus
`4294967311` and factor `2 ^ 32 ∈ [1, modulus)`, a shard constructed by
`shard_init` reaches, after two advance steps, `current = 0` — the DONE
sentinel — produced by the wrapped multiplication
`(2 ^ 32 · 2 ^ 32) mod 2 ^ 64 = 0`, with outcome `skip`, not through the
arc-end assignment (`params.last = 1` was never hit). -/
theorem C9_cursor_invariant_counterexample :
    Nat.Prime 4294967311 ∧
    1 ≤ (4294967296 : Nat) ∧ (4294967296 : Nat) < 4294967311 ∧
    shard_init ⟨2, 1, 1⟩ 10 0 1 0 1 0 0
        ⟨⟨4294967311, 4294967310⟩, 4294967296, 5, 0⟩ =
      some ⟨⟨1, 1, 4294967296, 4294967311⟩, 0, 1, 0, 0, none⟩ ∧
    shard_loop_body ⟨2, 1, 1⟩ ⟨⟨1, 1, 4294967296, 4294967311⟩, 0, 1, 0, 0, none⟩ =
      (⟨⟨1, 1, 4294967296, 4294967311⟩, 0, 4294967296, 0, 0, none⟩,
        step_outcome.skip) ∧
    shard_loop_body ⟨2, 1, 1⟩
        ⟨⟨1, 1, 4294967296, 4294967311⟩, 0, 4294967296, 0, 0, none⟩ =
      (⟨⟨1, 1, 4294967296, 4294967311⟩, 0, ZMAP_SHARD_DONE, 0, 0, none⟩,
        step_outcome.skip) ∧
    stepVal ⟨1, 1, 4294967296, 4294967311⟩ 4294967296 = ZMAP_SHARD_DONE ∧
    ZMAP_SHARD_DONE ≠
      (⟨1, 1, 4294967296, 4294967311⟩ : shard_params_t).last :=
  ⟨prime_4294967311, by decide, by decide, by decide, by decide, by decide,
    by decide, by decide⟩

/-- C9 (witness): the amended invariant applied at the prime 23. -/
theorem C9_cursor_invariant_witness :
    Nat.Prime 23 ∧ (23 - 1) * (23 - 1) < 2 ^ 64 ∧
    ((∀ s : shard_t, s.params.modulus = 23 → 1 ≤ s.params.factor →
      s.params.factor < 23 → 1 ≤ s.current → s.current < 23 →
      1 ≤ stepVal s.params s.current ∧ stepVal s.params s.current < 23) ∧
    (∀ fuel : Nat, ∀ s s' : shard_t, ∀ t : target_t,
      s.params.modulus = 23 → 1 ≤ s.params.factor → s.params.factor < 23 →
      (s.current = ZMAP_SHARD_DONE ∨ (1 ≤ s.current ∧ s.current < 23)) →
      shard_get_next_target ⟨21, 5, 4⟩ fuel s = some (s', t) →
      s'.current = ZMAP_SHARD_DONE ∨ (1 ≤ s'.current ∧ s'.current < 23)) ∧
    (∀ fuel shard_idx num_shards thread_idx num_threads M b : Nat,
      ∀ cycle : cycle_t, ∀ s0 : shard_t,
      cycle.group.prime = 23 → 1 ≤ cycle.generator → cycle.generator < 23 →
      shard_init ⟨21, 5, 4⟩ fuel shard_idx num_shards thread_idx num_threads M b
        cycle = some s0 →
      s0.params.modulus = 23 ∧
      (s0.current = ZMAP_SHARD_DONE ∨ (1 ≤ s0.current ∧ s0.current < 23)))) :=
  ⟨by norm_num, by norm_num,
    C9_cursor_invariant ⟨21, 5, 4⟩ 23 (by norm_num) (by norm_num)⟩

/-! ### Claim C8: quota distribution -/

theorem sum_indicator_lt (r : Nat) : ∀ S : Nat, r ≤ S →
    (∑ i ∈ Finset.range S, if i < r then 1 else 0) = r := by
  intro S
  induction S with
  | zero => intro h; simp; omega
  | succ n ih =>
    intro h
    rw [Finset.sum_range_succ]
    by_cases hr : r ≤ n
    · rw [ih hr, if_neg (by omega)]
      omega
    · have hr' : r = n + 1 := by omega
      subst hr'
      rw [if_pos (by omega)]
      have hc : (∑ i ∈ Finset.range n, if i < n + 1 then 1 else 0) =
          ∑ _i ∈ Finset.range n, 1 :=
        Finset.sum_congr rfl (fun i hi => if_pos (by
          have := Finset.mem_range.mp hi
          omega))
      rw [hc, Finset.sum_const, smul_eq_mul, mul_one, Finset.card_range]

/-- C8: for `max_total_targets = M > 0` and `num_subshards = S` with
`0 < S ≤ M`, the per-subshard quotas computed by `shard_init`
(`max_targets_this_shard`) sum over the `S` subshard ids to exactly `M`,
and any two quotas differ by at most one. -/
theorem C8_quota_distribution (M S : Nat) (hM : 0 < M) (hS : 0 < S)
    (hSM : S ≤ M) :
    (∑ i ∈ Finset.range S, max_targets_this_shard M S i) = M ∧
    (∀ i < S, ∀ j < S,
      max_targets_this_shard M S i ≤ max_targets_this_shard M S j + 1) := by
  constructor
  · unfold max_targets_this_shard
    rw [Finset.sum_add_distrib, Finset.sum_const, Finset.card_range,
      smul_eq_mul,
      sum_indicator_lt (M % S) S (Nat.le_of_lt (Nat.mod_lt _ hS))]
    exact Nat.div_add_mod M S
  · intro i _ j _
    unfold max_targets_this_shard
    split <;> split <;> omega

/-- C8 (witness): `M = 10`, `S = 4` gives quotas `3, 3, 2, 2`. -/
theorem C8_quota_distribution_witness :
    0 < (10 : Nat) ∧ 0 < (4 : Nat) ∧ (4 : Nat) ≤ 10 ∧
    ((∑ i ∈ Finset.range 4, max_targets_this_shard 10 4 i) = 10 ∧
    (∀ i < 4, ∀ j < 4,
      max_targets_this_shard 10 4 i ≤ max_targets_this_shard 10 4 j + 1)) :=
  ⟨by norm_num, by norm_num, by norm_num,
    C8_quota_distribution 10 4 (by norm_num) (by norm_num) (by norm_num)⟩

/-! ### Claim C4: termination -/

theorem stepIter_add (pr : shard_params_t) (a b : Nat) :
    ∀ x, stepIter pr (a + b) x = stepIter pr b (stepIter pr a x) := by
  induction a with
  | zero => intro x; rw [Nat.zero_add]; rfl
  | succ n ih =>
    intro x
    have hswap : n + 1 + b = n + b + 1 := by omega
    rw [hswap, stepIter, stepIter, ih]

/-- The skip loop succeeds (returns within fuel) as soon as the iterated
advance reaches `params.last` within the fuel. -/
theorem shard_next_loop_total (env : scan_env_t) :
    ∀ d s fuel, 1 ≤ d → d ≤ fuel →
    stepIter s.params d s.current = s.params.last →
    ∃ r, shard_next_loop env fuel s = some r := by
  intro d
  induction d with
  | zero => intro s fuel h; omega
  | succ k ih =>
    intro s fuel _ hfuel hreach
    obtain ⟨f, rfl⟩ : ∃ f, fuel = f + 1 := ⟨fuel - 1, by omega⟩
    rw [shard_next_loop]
    by_cases hlast : stepVal s.params s.current = s.params.last
    · rw [shard_loop_body_done env s hlast]
      exact ⟨_, rfl⟩
    · have hk : 1 ≤ k := by
        rcases Nat.eq_zero_or_pos k with hk0 | hk0
        · subst hk0
          exact absurd hreach hlast
        · exact hk0
      by_cases hmti : env.max_target_index ≤ stepVal s.params s.current
      · rw [shard_loop_body_skip_high env s hlast hmti]
        exact ih _ f hk (by omega) hreach
      · by_cases hb : extract_ip (dec64 (stepVal s.params s.current))
            s.bits_for_port < env.max_ip_index ∧
            extract_port (dec64 (stepVal s.params s.current)) s.bits_for_port <
              env.port_count
        · rw [shard_loop_body_emit env s hlast (Nat.not_le.mp hmti) hb]
          exact ⟨_, rfl⟩
        · rw [shard_loop_body_skip_oob env s hlast (Nat.not_le.mp hmti) hb]
          exact ih _ f hk (by omega) hreach

/-- One successful call either finishes the shard or strictly shrinks the
remaining distance to `params.last`. -/
theorem shard_call_progress (env : scan_env_t) (s : shard_t) (d fuel : Nat)
    (hd : 1 ≤ d) (hfuel : d ≤ fuel) (h0 : s.current ≠ ZMAP_SHARD_DONE)
    (hreach : stepIter s.params d s.current = s.params.last) :
    ∃ s' t, shard_get_next_target env fuel s = some (s', t) ∧
      s'.params = s.params ∧
      (s'.current = ZMAP_SHARD_DONE ∨
        ∃ d', 1 ≤ d' ∧ d' < d ∧
          stepIter s'.params d' s'.current = s'.params.last) := by
  obtain ⟨⟨s', t⟩, hr⟩ := shard_next_loop_total env d s fuel hd hfuel hreach
  have hnt : shard_get_next_target env fuel s = some (s', t) := by
    unfold shard_get_next_target
    rw [if_neg h0]
    exact hr
  obtain ⟨n, hn1, _, hmin, hpar, _, _, _, _, hres⟩ :=
    shard_next_loop_spec env fuel s s' t hr
  have hnd : n ≤ d := by
    by_contra hc
    exact (hmin d hd (by omega)).1 hreach
  refine ⟨s', t, hnt, hpar, ?_⟩
  rcases hres with ⟨_, hcur, _⟩ | ⟨hne, _, hcur, _⟩
  · exact Or.inl hcur
  · right
    have hnd' : n < d := by
      rcases Nat.lt_or_ge n d with h | h
      · exact h
      · have : n = d := by omega
        subst this
        exact absurd hreach hne
    refine ⟨d - n, by omega, by omega, ?_⟩
    rw [hpar, hcur, ← stepIter_add s.params n (d - n) s.current,
      show n + (d - n) = d by omega]
    exact hreach

/-- Every shard whose cursor reaches `params.last` within `d` iterated
advances is DONE after at most `d` calls (each call run with fuel at least
`d`). -/
theorem shard_calls_reach_done (env : scan_env_t) (fuel : Nat) :
    ∀ d s, 1 ≤ d → d ≤ fuel →
    stepIter s.params d s.current = s.params.last →
    ∃ n, n ≤ d ∧ (shard_call_iter env fuel n s).current = ZMAP_SHARD_DONE := by
  intro d
  induction d using Nat.strong_induction_on with
  | _ d ih =>
    intro s hd hfuel hreach
    by_cases h0 : s.current = ZMAP_SHARD_DONE
    · exact ⟨0, by omega, h0⟩
    · obtain ⟨s', t, hnt, hpar, hres⟩ :=
        shard_call_progress env s d fuel hd hfuel h0 hreach
      rcases hres with hdone | ⟨d', hd1, hd2, hreach'⟩
      · refine ⟨1, hd, ?_⟩
        rw [shard_call_iter, hnt]
        exact hdone
      · obtain ⟨n', hn1, hn2⟩ := ih d' hd2 s' hd1 (by omega) hreach'
        refine ⟨n' + 1, by omega, ?_⟩
        rw [shard_call_iter, hnt]
        exact hn2

/-- C4: under the precondition that the factor generates the
multiplicative group modulo the prime modulus with order
`Q = modulus - 1` — so that, as the claim states it, repeated
multiplication from the cursor reaches `params.last` within `Q` steps —
every `shard_get_next_target` call returns within at most `Q` iterations
of its skip loop, and the shard reaches DONE after at most `Q` advance
calls. -/
theorem C4_termination (env : scan_env_t) (s : shard_t) (Q : Nat)
    (hp : Nat.Prime s.params.modulus)
    (hQ : 0 < Q)
    (hgQ : s.params.factor ^ Q % s.params.modulus = 1)
    (hgmin : ∀ e ∈ List.range Q, 0 < e →
      s.params.factor ^ e % s.params.modulus ≠ 1)
    (hQfull : Q = s.params.modulus - 1)
    (hreach : ∃ d, 1 ≤ d ∧ d ≤ Q ∧
      stepIter s.params d s.current = s.params.last)
    (h0 : s.current ≠ ZMAP_SHARD_DONE) :
    (∃ r, shard_next_loop env Q s = some r) ∧
    (∃ n, n ≤ Q ∧ (shard_call_iter env Q n s).current = ZMAP_SHARD_DONE) := by
  obtain ⟨d, hd1, hd2, hdr⟩ := hreach
  constructor
  · exact shard_next_loop_total env d s Q hd1 hd2 hdr
  · obtain ⟨n, hn1, hn2⟩ := shard_calls_reach_done env Q d s hd1 hd2 hdr
    exact ⟨n, by omega, hn2⟩

/-- C4 (witness): modulus 23, factor 5 (a primitive root, order 22),
`current = 1`, `last = 2 = 5 ^ 2 % 23`: the shard is DONE within 22
calls. -/
theorem C4_termination_witness :
    Nat.Prime 23 ∧ 0 < 22 ∧ (5 : Nat) ^ 22 % 23 = 1 ∧
    (∀ e ∈ List.range 22, 0 < e → (5 : Nat) ^ e % 23 ≠ 1) ∧
    (22 : Nat) = 23 - 1 ∧
    (∃ d, 1 ≤ d ∧ d ≤ 22 ∧
      stepIter ⟨1, 2, 5, 23⟩ d 1 = 2) ∧
    (1 : Nat) ≠ ZMAP_SHARD_DONE ∧
    ((∃ r, shard_next_loop ⟨21, 5, 4⟩ 22 ⟨⟨1, 2, 5, 23⟩, 2, 1, 0, 0, none⟩ =
        some r) ∧
    (∃ n, n ≤ 22 ∧
      (shard_call_iter ⟨21, 5, 4⟩ 22 n
          ⟨⟨1, 2, 5, 23⟩, 2, 1, 0, 0, none⟩).current = ZMAP_SHARD_DONE)) :=
  ⟨by norm_num, by norm_num, by norm_num, by decide, by norm_num,
    ⟨2, by norm_num, by norm_num, by decide⟩, by decide,
    C4_termination ⟨21, 5, 4⟩ ⟨⟨1, 2, 5, 23⟩, 2, 1, 0, 0, none⟩ 22
      (by norm_num) (by norm_num) (by norm_num) (by decide) (by norm_num)
      ⟨2, by norm_num, by norm_num, by decide⟩ (by decide)⟩

/-! ### Group-theoretic bridge: powers of the generator mod `p` -/

theorem pow_mod_eq_iff {env : scan_env_t} {p g Q b : Nat}
    (H : C1Hyps env p g Q b) (m n : Nat) :
    g ^ m % p = g ^ n % p ↔ Nat.ModEq Q m n := by
  haveI : Fact (Nat.Prime p) := ⟨H.hp⟩
  haveI : NeZero p := ⟨H.hp.pos.ne'⟩
  haveI : Fact (1 < p) := ⟨H.hp.one_lt⟩
  have hcop : Nat.Coprime g p := by
    rcases (Nat.coprime_or_dvd_of_prime H.hp g) with h | h
    · exact Nat.Coprime.symm h
    · exact absurd (Nat.le_of_dvd H.hg1 h) (Nat.not_le.mpr H.hg2)
  have hcast : ∀ e : Nat, ((g : ZMod p) ^ e).val = g ^ e % p := by
    intro e
    rw [← Nat.cast_pow, ZMod.val_natCast]
  have hpow1 : ∀ e : Nat, ((g : ZMod p) ^ e = 1 ↔ g ^ e % p = 1) := by
    intro e
    constructor
    · intro h
      have hv := congrArg ZMod.val h
      rwa [hcast, ZMod.val_one] at hv
    · intro h
      have h2 : (((g ^ e % p : Nat)) : ZMod p) = ((1 : Nat) : ZMod p) := by rw [h]
      rwa [ZMod.natCast_mod, Nat.cast_pow, Nat.cast_one] at h2
  have horder : orderOf (ZMod.unitOfCoprime g hcop) = Q := by
    rw [orderOf_eq_iff H.hQ0]
    constructor
    · apply Units.ext
      rw [Units.val_pow_eq_pow_val, Units.val_one, ZMod.coe_unitOfCoprime]
      exact (hpow1 Q).mpr H.hgQ
    · intro m hmQ hm0 hc
      have hgm : (g : ZMod p) ^ m = 1 := by
        rw [← ZMod.coe_unitOfCoprime g hcop, ← Units.val_pow_eq_pow_val, hc,
          Units.val_one]
      exact H.hgmin m hm0 hmQ ((hpow1 m).mp hgm)
  constructor
  · intro h
    have hu : (ZMod.unitOfCoprime g hcop) ^ m = (ZMod.unitOfCoprime g hcop) ^ n := by
      apply Units.ext
      rw [Units.val_pow_eq_pow_val, Units.val_pow_eq_pow_val,
        ZMod.coe_unitOfCoprime]
      have h2 : (((g ^ m % p : Nat)) : ZMod p) = ((g ^ n % p : Nat) : ZMod p) := by
        rw [h]
      rwa [ZMod.natCast_mod, ZMod.natCast_mod, Nat.cast_pow, Nat.cast_pow] at h2
    have hm := pow_eq_pow_iff_modEq.mp hu
    rwa [horder] at hm
  · intro h
    have hu : (ZMod.unitOfCoprime g hcop) ^ m = (ZMod.unitOfCoprime g hcop) ^ n :=
      pow_eq_pow_iff_modEq.mpr (by rwa [horder])
    have h2 := congrArg (fun w : (ZMod p)ˣ => ZMod.val (w : ZMod p)) hu
    simp only [Units.val_pow_eq_pow_val, ZMod.coe_unitOfCoprime] at h2
    rwa [hcast, hcast] at h2

/-- The generator's order divides `p - 1`, so `Q ≤ p - 1`. -/
theorem order_le_p_sub_one {env : scan_env_t} {p g Q b : Nat}
    (H : C1Hyps env p g Q b) : Q ≤ p - 1 := by
  by_contra hc
  haveI : Fact (Nat.Prime p) := ⟨H.hp⟩
  haveI : Fact (1 < p) := ⟨H.hp.one_lt⟩
  have hg0 : (g : ZMod p) ≠ 0 := by
    intro h0
    have hv := congrArg ZMod.val h0
    rw [ZMod.val_natCast, ZMod.val_zero, Nat.mod_eq_of_lt H.hg2] at hv
    have hg1 := H.hg1
    omega
  have hflt : g ^ (p - 1) % p = 1 := by
    have h1 := ZMod.pow_card_sub_one_eq_one hg0
    have h2 := congrArg ZMod.val h1
    rwa [← Nat.cast_pow, ZMod.val_natCast, ZMod.val_one] at h2
  have hp1 : 0 < p - 1 := by
    have := H.hp.one_lt
    omega
  exact H.hgmin (p - 1) hp1 (by omega) hflt

/-- The no-wrap bound forces `p ≤ 2 ^ 32`. -/
theorem p_le_two_pow_32 {env : scan_env_t} {p g Q b : Nat}
    (H : C1Hyps env p g Q b) : p ≤ 2 ^ 32 := by
  by_contra hc
  have hb : 2 ^ 32 * 2 ^ 32 ≤ (p - 1) * (p - 1) :=
    Nat.mul_le_mul (by omega) (by omega)
  have h64 : (2 : Nat) ^ 32 * 2 ^ 32 = 2 ^ 64 := by norm_num
  have := H.hw
  omega

/-! ### Cycle distance arithmetic -/

theorem distQ_pos (Q α β : Nat) : 1 ≤ distQ Q α β := by
  unfold distQ
  omega

theorem distQ_le (Q α β : Nat) (hQ : 0 < Q) : distQ Q α β ≤ Q := by
  unfold distQ
  have := Nat.mod_lt (β + Q - α - 1) hQ
  omega

theorem distQ_modeq (Q α β : Nat) (hQ : 0 < Q) (hα : α < Q) (hβ : β < Q) :
    (α + distQ Q α β) % Q = β % Q := by
  unfold distQ
  rcases Nat.lt_or_ge (β + Q - α - 1) Q with h | h
  · rw [Nat.mod_eq_of_lt h]
    have he : α + (β + Q - α - 1 + 1) = β + Q := by omega
    rw [he, Nat.add_mod_right]
  · have hlt : β + Q - α - 1 - Q < Q := by omega
    rw [Nat.mod_eq_sub_mod h, Nat.mod_eq_of_lt hlt]
    have he : α + (β + Q - α - 1 - Q + 1) = β := by omega
    rw [he]

theorem distQ_unique (Q α β d : Nat) (hQ : 0 < Q) (hα : α < Q) (hβ : β < Q)
    (hd1 : 1 ≤ d) (hd2 : d ≤ Q) (hmod : (α + d) % Q = β % Q) :
    distQ Q α β = d := by
  have h1 := distQ_modeq Q α β hQ hα hβ
  have h2 : (α + distQ Q α β) % Q = (α + d) % Q := by rw [h1, hmod]
  have h3 : distQ Q α β % Q = d % Q := Nat.ModEq.add_left_cancel' α h2
  have hD1 := distQ_pos Q α β
  have hD2 := distQ_le Q α β hQ
  rcases Nat.eq_or_lt_of_le hD2 with hDQ | hDQ <;>
    rcases Nat.eq_or_lt_of_le hd2 with hdQ | hdQ
  · omega
  · rw [hDQ, Nat.mod_self, Nat.mod_eq_of_lt hdQ] at h3
    omega
  · rw [hdQ, Nat.mod_self, Nat.mod_eq_of_lt hDQ] at h3
    omega
  · rw [Nat.mod_eq_of_lt hDQ, Nat.mod_eq_of_lt hdQ] at h3
    exact h3

theorem distQ_min (Q α β : Nat) (hQ : 0 < Q) (hα : α < Q) (hβ : β < Q) :
    ∀ j, 0 < j → j < distQ Q α β → (α + j) % Q ≠ β % Q := by
  intro j hj1 hj2 hcon
  have hju : distQ Q α β = j :=
    distQ_unique Q α β j hQ hα hβ hj1
      (le_trans (Nat.le_of_lt hj2) (distQ_le Q α β hQ)) hcon
  omega

/-! ### Arc list structure -/

theorem arc_full_cons (p g α d : Nat) (hd : 1 ≤ d) :
    arc_full p g α d = (g ^ α % p) :: arc_cands p g α d := by
  unfold arc_full arc_cands
  obtain ⟨d', rfl⟩ : ∃ d', d = d' + 1 := ⟨d - 1, by omega⟩
  rw [List.range_succ_eq_map, List.map_cons, List.map_map]
  rw [show d' + 1 - 1 = d' from rfl]
  rfl

theorem arc_cands_zero (p g α d : Nat) (hd : d ≤ 1) : arc_cands p g α d = [] := by
  unfold arc_cands
  have h0 : d - 1 = 0 := by omega
  rw [h0]
  rfl

theorem arc_cands_cons (p g α d : Nat) (hd : 2 ≤ d) :
    arc_cands p g α d = (g ^ (α + 1) % p) :: arc_cands p g (α + 1) (d - 1) := by
  unfold arc_cands
  obtain ⟨d', rfl⟩ : ∃ d', d = d' + 2 := ⟨d - 2, by omega⟩
  rw [show d' + 2 - 1 = d' + 1 from rfl, List.range_succ_eq_map, List.map_cons,
    List.map_map, show d' + 1 - 1 = d' from rfl]
  congr 1
  refine List.map_congr_left (fun j _ => ?_)
  have he : α + Nat.succ j + 1 = α + 1 + j + 1 := by omega
  simp only [Function.comp_apply, he]

theorem mem_arc_full (p g α d v : Nat) :
    v ∈ arc_full p g α d ↔ ∃ j, j < d ∧ g ^ (α + j) % p = v := by
  unfold arc_full
  simp only [List.mem_map, List.mem_range]

theorem arc_full_val_range {env : scan_env_t} {p g Q b : Nat}
    (H : C1Hyps env p g Q b) (α d v : Nat) (hv : v ∈ arc_full p g α d) :
    1 ≤ v ∧ v < p := by
  obtain ⟨j, _, he⟩ := (mem_arc_full p g α d v).mp hv
  rw [← he]
  exact pow_mod_prime_range p g (α + j) H.hp H.hg1 H.hg2

/-! ### Trajectory and eligibility equivalences -/

theorem stepVal_traj {env : scan_env_t} {p g Q b : Nat}
    (H : C1Hyps env p g Q b) (pr : shard_params_t)
    (hf : pr.factor = g) (hm : pr.modulus = p) (α : Nat) :
    stepVal pr (g ^ α % p) = g ^ (α + 1) % p := by
  rw [stepVal_no_wrap pr _
      (by rw [hm]; exact (pow_mod_prime_range p g α H.hp H.hg1 H.hg2).2)
      (by rw [hm, hf]; exact H.hg2)
      (by rw [hm]; exact H.hw),
    hm, hf, Nat.mod_mul_mod, ← pow_succ]

theorem pair_ok_iff_emit_ok {env : scan_env_t} {p g Q b : Nat}
    (H : C1Hyps env p g Q b) (v : Nat) (hv1 : 1 ≤ v) (hv2 : v < p) :
    pair_ok env b v ↔ emit_ok env b v := by
  have hp32 := p_le_two_pow_32 H
  have hdec : dec64 v = v - 1 := dec64_eq hv1 (by rw [U64_eq]; omega)
  constructor
  · intro hpk
    refine ⟨?_, hpk.1, hpk.2⟩
    have hipv : extract_ip (dec64 v) b = (v - 1) / 2 ^ b := by
      rw [hdec]
      exact extract_ip_eq (by
        have := Nat.div_le_self (v - 1) (2 ^ b)
        omega)
    have hptv : extract_port (dec64 v) b = (v - 1) % 2 ^ b := by
      rw [hdec]
      exact extract_port_eq H.hb
    have h1 := hpk.1
    rw [hipv] at h1
    have h2 := hpk.2
    rw [hptv] at h2
    have hm := H.hmti _ h1 _ h2
    have hdm := Nat.div_add_mod (v - 1) (2 ^ b)
    rw [Nat.mul_comm (2 ^ b)] at hdm
    omega
  · intro hek
    exact ⟨hek.2.1, hek.2.2⟩

theorem roll_check_iff {env : scan_env_t} {p g Q b : Nat}
    (H : C1Hyps env p g Q b) (v : Nat) (hv1 : 1 ≤ v) (hv2 : v < p) :
    (dec64 v >>> b < env.max_ip_index ∧
      extract_port (dec64 v) b < env.port_count) ↔ pair_ok env b v := by
  have hp32 := p_le_two_pow_32 H
  have hdec : dec64 v = v - 1 := dec64_eq hv1 (by rw [U64_eq]; omega)
  unfold pair_ok
  have hipv : extract_ip (dec64 v) b = dec64 v >>> b := by
    unfold extract_ip
    apply Nat.mod_eq_of_lt
    rw [hdec, Nat.shiftRight_eq_div_pow]
    have := Nat.div_le_self (v - 1) (2 ^ b)
    omega
  rw [hipv]

theorem decode_pair_encode (b a c : Nat) (hb : b ≤ 16) (ha : a < 2 ^ 32)
    (hc : c < 2 ^ b) : decode_pair b (a * 2 ^ b + c + 1) = (a, c) := by
  have h2b : (2 : Nat) ^ b ≤ 2 ^ 16 := Nat.pow_le_pow_right (by norm_num) hb
  have hmul : a * 2 ^ b ≤ 2 ^ 32 * 2 ^ 16 :=
    Nat.mul_le_mul (Nat.le_of_lt ha) h2b
  have hlit1 : (2 : Nat) ^ 32 * 2 ^ 16 = 281474976710656 := by norm_num
  have hlit2 : (2 : Nat) ^ 16 = 65536 := by norm_num
  have hv : a * 2 ^ b + c + 1 < U64 := by
    rw [U64_eq]
    omega
  unfold decode_pair
  rw [dec64_eq (by omega) hv,
    show a * 2 ^ b + c + 1 - 1 = a * 2 ^ b + c from by omega]
  rw [extract_port_eq hb]
  have hdiv : (a * 2 ^ b + c) / 2 ^ b = a := by
    rw [Nat.mul_comm a, Nat.mul_add_div (Nat.two_pow_pos b),
      Nat.div_eq_of_lt hc, Nat.add_zero]
  have hmod : (a * 2 ^ b + c) % 2 ^ b = c := by
    rw [Nat.mul_comm a (2 ^ b), Nat.mul_add_mod]
    exact Nat.mod_eq_of_lt hc
  rw [extract_ip_eq (by rw [hdiv]; exact ha), hdiv, hmod]

theorem filter_emit_cons_pos (env : scan_env_t) (b v : Nat) (l : List Nat)
    (h : emit_ok env b v) :
    (v :: l).filter (fun x => decide (emit_ok env b x)) =
      v :: l.filter (fun x => decide (emit_ok env b x)) := by
  simp [List.filter_cons, h]

theorem filter_emit_cons_neg (env : scan_env_t) (b v : Nat) (l : List Nat)
    (h : ¬ emit_ok env b v) :
    (v :: l).filter (fun x => decide (emit_ok env b x)) =
      l.filter (fun x => decide (emit_ok env b x)) := by
  simp [List.filter_cons, h]

/-- Core trajectory lemma: from a cursor sitting on `g ^ α % p` that is
`d` advance steps from the arc end `g ^ β % p`, the driver advance loop
reaches DONE and emits exactly the eligible candidates of the arc, and
the raw candidate trace is the candidate list of the arc. -/
theorem drive_trace_spec {env : scan_env_t} {p g Q b : Nat}
    (H : C1Hyps env p g Q b) (β : Nat) :
    ∀ d α s fuel, 1 ≤ d → d ≤ fuel →
    s.params.factor = g → s.params.modulus = p → s.params.last = g ^ β % p →
    s.bits_for_port = b → s.current = g ^ α % p →
    (α + d) % Q = β % Q →
    (∀ j, 0 < j → j < d → (α + j) % Q ≠ β % Q) →
    shard_drive env fuel s =
      (((arc_cands p g α d).filter (fun v => decide (emit_ok env b v))).map
        (decode_pair b), true) ∧
    shard_raw_trace env fuel s = arc_cands p g α d := by
  intro d
  induction d with
  | zero => intro α s fuel h1; omega
  | succ k ih =>
    intro α s fuel h1 hfuel hf hm hl hbits hcur hmod hmin
    obtain ⟨f, rfl⟩ : ∃ f, fuel = f + 1 := ⟨fuel - 1, by omega⟩
    have hcand : stepVal s.params s.current = g ^ (α + 1) % p := by
      rw [hcur]
      exact stepVal_traj H s.params hf hm α
    by_cases hk0 : k = 0
    · subst hk0
      have hlast : stepVal s.params s.current = s.params.last := by
        rw [hcand, hl]
        exact (pow_mod_eq_iff H (α + 1) β).mpr hmod
      constructor
      · rw [arc_cands_zero p g α 1 (by omega)]
        simp only [shard_drive, shard_loop_body_done env s hlast]
        rfl
      · rw [arc_cands_zero p g α 1 (by omega)]
        simp only [shard_raw_trace, shard_loop_body_done env s hlast]
    · have hk1 : 1 ≤ k := by omega
      have hne : stepVal s.params s.current ≠ s.params.last := by
        rw [hcand, hl]
        intro hcon
        exact hmin 1 (by omega) (by omega) ((pow_mod_eq_iff H (α + 1) β).mp hcon)
      have harc : arc_cands p g α (k + 1) =
          (g ^ (α + 1) % p) :: arc_cands p g (α + 1) k := by
        have hc := arc_cands_cons p g α (k + 1) (by omega)
        rwa [show k + 1 - 1 = k from rfl] at hc
      have hmod2 : (α + 1 + k) % Q = β % Q := by
        rwa [show α + 1 + k = α + (k + 1) from by omega]
      have hmin2 : ∀ j, 0 < j → j < k → (α + 1 + j) % Q ≠ β % Q := by
        intro j hj1 hj2
        rw [show α + 1 + j = α + (j + 1) from by omega]
        exact hmin (j + 1) (by omega) (by omega)
      by_cases hmti : env.max_target_index ≤ stepVal s.params s.current
      · have hbody := shard_loop_body_skip_high env s hne hmti
        have hnotemit : ¬ emit_ok env b (g ^ (α + 1) % p) := by
          intro hok
          rw [← hcand] at hok
          exact absurd hok.1 (Nat.not_lt.mpr hmti)
        obtain ⟨ih1, ih2⟩ := ih (α + 1)
          ({ s with current := stepVal s.params s.current }) f hk1 (by omega)
          hf hm hl hbits hcand hmod2 hmin2
        constructor
        · simp only [shard_drive, hbody]
          rw [ih1, harc, filter_emit_cons_neg env b _ _ hnotemit]
        · simp only [shard_raw_trace, hbody]
          rw [ih2, harc, hcand]
      · by_cases hbnd : extract_ip (dec64 (stepVal s.params s.current))
            s.bits_for_port < env.max_ip_index ∧
            extract_port (dec64 (stepVal s.params s.current)) s.bits_for_port <
              env.port_count
        · have hbody := shard_loop_body_emit env s hne (Nat.not_le.mp hmti) hbnd
          have hemit : emit_ok env b (g ^ (α + 1) % p) := by
            rw [← hcand]
            refine ⟨Nat.not_le.mp hmti, ?_, ?_⟩
            · rw [← hbits]
              exact hbnd.1
            · rw [← hbits]
              exact hbnd.2
          obtain ⟨ih1, ih2⟩ := ih (α + 1)
            ({ s with
                current := stepVal s.params s.current,
                iterations := s.iterations + 1 }) f hk1 (by omega)
            hf hm hl hbits hcand hmod2 hmin2
          constructor
          · simp only [shard_drive, hbody]
            rw [ih1, harc, filter_emit_cons_pos env b _ _ hemit, List.map_cons]
            simp only [hcand, hbits]
            rfl
          · simp only [shard_raw_trace, hbody]
            rw [ih2, harc, hcand]
        · have hbody := shard_loop_body_skip_oob env s hne (Nat.not_le.mp hmti)
            hbnd
          have hnotemit : ¬ emit_ok env b (g ^ (α + 1) % p) := by
            intro hok
            rw [← hcand] at hok
            rw [← hbits] at hok
            exact hbnd ⟨hok.2.1, hok.2.2⟩
          obtain ⟨ih1, ih2⟩ := ih (α + 1)
            ({ s with current := stepVal s.params s.current }) f hk1 (by omega)
            hf hm hl hbits hcand hmod2 hmin2
          constructor
          · simp only [shard_drive, hbody]
            rw [ih1, harc, filter_emit_cons_neg env b _ _ hnotemit]
          · simp only [shard_raw_trace, hbody]
            rw [ih2, harc, hcand]

theorem shard_enumerate_eq_cons {env : scan_env_t} {p g Q b : Nat}
    (H : C1Hyps env p g Q b) (s : shard_t) (α fuel : Nat)
    (hbits : s.bits_for_port = b) (hcur : s.current = g ^ α % p) :
    shard_enumerate env fuel s =
      (decode_pair b s.current :: (shard_drive env fuel s).1,
        (shard_drive env fuel s).2) := by
  have h0 : s.current ≠ ZMAP_SHARD_DONE := by
    rw [hcur]
    unfold ZMAP_SHARD_DONE
    have := (pow_mod_prime_range p g α H.hp H.hg1 H.hg2).1
    omega
  unfold shard_enumerate shard_get_cur_target
  rw [if_neg h0, if_neg h0]
  unfold decode_pair
  rw [hbits]


/-- Roll-phase lemma: when the loop of `shard_get_next_target` starts `d`
steps from the arc end, enumerating the shard it returns yields exactly
the eligible candidates of the remaining arc. -/
theorem roll_enum_spec {env : scan_env_t} {p g Q b : Nat}
    (H : C1Hyps env p g Q b) (β : Nat) :
    ∀ d α s fuelR fuelE, 1 ≤ d → d ≤ fuelR → d ≤ fuelE →
    s.params.factor = g → s.params.modulus = p → s.params.last = g ^ β % p →
    s.bits_for_port = b → s.current = g ^ α % p →
    (α + d) % Q = β % Q →
    (∀ j, 0 < j → j < d → (α + j) % Q ≠ β % Q) →
    (shard_next_loop env fuelR s).map
        (fun pr => shard_enumerate env fuelE pr.1) =
      some ((((arc_cands p g α d).filter
        (fun v => decide (emit_ok env b v))).map (decode_pair b)), true) := by
  intro d
  induction d with
  | zero => intro α s fuelR fuelE h1; omega
  | succ k ih =>
    intro α s fuelR fuelE h1 hfuelR hfuelE hf hm hl hbits hcur hmod hmin
    obtain ⟨fR, rfl⟩ : ∃ fR, fuelR = fR + 1 := ⟨fuelR - 1, by omega⟩
    have hcand : stepVal s.params s.current = g ^ (α + 1) % p := by
      rw [hcur]
      exact stepVal_traj H s.params hf hm α
    by_cases hk0 : k = 0
    · subst hk0
      have hlast : stepVal s.params s.current = s.params.last := by
        rw [hcand, hl]
        exact (pow_mod_eq_iff H (α + 1) β).mpr hmod
      have hdone : shard_enumerate env fuelE
          ({ s with
              current := ZMAP_SHARD_DONE,
              iterations := s.iterations + 1 }) = ([], true) := by
        unfold shard_enumerate
        rw [if_pos rfl]
      rw [shard_next_loop, shard_loop_body_done env s hlast,
        arc_cands_zero p g α 1 (by omega)]
      exact congrArg some hdone
    · have hk1 : 1 ≤ k := by omega
      have hne : stepVal s.params s.current ≠ s.params.last := by
        rw [hcand, hl]
        intro hcon
        exact hmin 1 (by omega) (by omega) ((pow_mod_eq_iff H (α + 1) β).mp hcon)
      have harc : arc_cands p g α (k + 1) =
          (g ^ (α + 1) % p) :: arc_cands p g (α + 1) k := by
        have hc := arc_cands_cons p g α (k + 1) (by omega)
        rwa [show k + 1 - 1 = k from rfl] at hc
      have hmod2 : (α + 1 + k) % Q = β % Q := by
        rwa [show α + 1 + k = α + (k + 1) from by omega]
      have hmin2 : ∀ j, 0 < j → j < k → (α + 1 + j) % Q ≠ β % Q := by
        intro j hj1 hj2
        rw [show α + 1 + j = α + (j + 1) from by omega]
        exact hmin (j + 1) (by omega) (by omega)
      by_cases hmti : env.max_target_index ≤ stepVal s.params s.current
      · have hbody := shard_loop_body_skip_high env s hne hmti
        have hnotemit : ¬ emit_ok env b (g ^ (α + 1) % p) := by
          intro hok
          rw [← hcand] at hok
          exact absurd hok.1 (Nat.not_lt.mpr hmti)
        rw [shard_next_loop, hbody, harc,
          filter_emit_cons_neg env b _ _ hnotemit]
        exact ih (α + 1) ({ s with current := stepVal s.params s.current })
          fR fuelE hk1 (by omega) (by omega) hf hm hl hbits hcand hmod2 hmin2
      · by_cases hbnd : extract_ip (dec64 (stepVal s.params s.current))
            s.bits_for_port < env.max_ip_index ∧
            extract_port (dec64 (stepVal s.params s.current)) s.bits_for_port <
              env.port_count
        · have hbody := shard_loop_body_emit env s hne (Nat.not_le.mp hmti) hbnd
          have hemit : emit_ok env b (g ^ (α + 1) % p) := by
            rw [← hcand]
            refine ⟨Nat.not_le.mp hmti, ?_, ?_⟩
            · rw [← hbits]
              exact hbnd.1
            · rw [← hbits]
              exact hbnd.2
          have hcons := shard_enumerate_eq_cons H
            ({ s with
                current := stepVal s.params s.current,
                iterations := s.iterations + 1 }) (α + 1) fuelE hbits hcand
          obtain ⟨hd1, -⟩ := drive_trace_spec H β k (α + 1)
            ({ s with
                current := stepVal s.params s.current,
                iterations := s.iterations + 1 }) fuelE hk1 (by omega)
            hf hm hl hbits hcand hmod2 hmin2
          have hfin : shard_enumerate env fuelE
              ({ s with
                  current := stepVal s.params s.current,
                  iterations := s.iterations + 1 }) =
              (decode_pair b (g ^ (α + 1) % p) ::
                ((arc_cands p g (α + 1) k).filter
                  (fun v => decide (emit_ok env b v))).map (decode_pair b),
                true) := by
            rw [hcons, hd1]
            simp only [hcand]
          rw [shard_next_loop, hbody, harc,
            filter_emit_cons_pos env b _ _ hemit, List.map_cons]
          exact congrArg some hfin
        · have hbody := shard_loop_body_skip_oob env s hne (Nat.not_le.mp hmti)
            hbnd
          have hnotemit : ¬ emit_ok env b (g ^ (α + 1) % p) := by
            intro hok
            rw [← hcand, ← hbits] at hok
            exact hbnd ⟨hok.2.1, hok.2.2⟩
          rw [shard_next_loop, hbody, harc,
            filter_emit_cons_neg env b _ _ hnotemit]
          exact ih (α + 1) ({ s with current := stepVal s.params s.current })
            fR fuelE hk1 (by omega) (by omega) hf hm hl hbits hcand hmod2 hmin2

/-- Exact initialization of subshard `i`: `shard_init_raw` succeeds and
places the cursor on the group element of the rotated block-boundary
exponent `arc_start`, with the stop element at the next boundary. -/
theorem subshard_raw_eq {env : scan_env_t} {p g Q b : Nat}
    (H : C1Hyps env p g Q b) (cycle : cycle_t) (N T i : Nat)
    (hcp : cycle.group.prime = p) (hcg : cycle.generator = g)
    (hco : cycle.order = Q) (hk : cycle.offset < Q)
    (hN : 0 < N) (hT : 0 < T) (hS : N * T < Q) (hi : i < N * T) :
    ∃ s0, shard_init_raw (i / T) N (i % T) T 0 b cycle = some s0 ∧
      s0.params.factor = g ∧ s0.params.modulus = p ∧
      s0.params.last =
        g ^ arc_start Q (N * T) cycle.offset ((i + 1) % (N * T)) % p ∧
      s0.bits_for_port = b ∧
      s0.current = g ^ arc_start Q (N * T) cycle.offset i % p ∧
      s0.iterations = 0 ∧ s0.max_targets = none := by
  have hS0 : 0 < N * T := Nat.mul_pos hN hT
  have hQ1 : Q ≤ p - 1 := order_le_p_sub_one H
  have hp32 : p ≤ 2 ^ 32 := p_le_two_pow_32 H
  have hA : 0 < N ∧ 0 < T ∧ i / T < N ∧ i % T < T :=
    ⟨hN, hT, (Nat.div_lt_iff_lt_mul hT).mpr hi, Nat.mod_lt _ hT⟩
  have hB : N * T < cycle.order ∧ ((0 : Nat) = 0 ∨ N * T ≤ 0) :=
    ⟨by rw [hco]; exact hS, Or.inl rfl⟩
  have hsub : i / T * T + i % T = i := by
    rw [Nat.mul_comm]
    exact Nat.div_add_mod i T
  have hred : ∀ e, e < N * T →
      (cycle.order / (N * T) * e + cycle.offset) % U64 % cycle.order =
        arc_start Q (N * T) cycle.offset e := by
    intro e he
    have hb1 : Q / (N * T) * e ≤ Q :=
      Nat.le_trans (Nat.mul_le_mul (Nat.le_refl (Q / (N * T))) (Nat.le_of_lt he))
        (Nat.div_mul_le_self Q (N * T))
    have hlt : Q / (N * T) * e + cycle.offset < U64 := by
      rw [U64_eq]
      omega
    rw [hco, Nat.mod_eq_of_lt hlt]
    rfl
  unfold shard_init_raw
  rw [if_pos hA]
  dsimp only
  rw [if_pos hB]
  refine ⟨_, rfl, hcg, hcp, ?_, rfl, ?_, rfl, rfl⟩
  · dsimp only
    rw [hsub, hred ((i + 1) % (N * T)) (Nat.mod_lt _ hS0), hcg, hcp]
  · dsimp only
    rw [hsub, hred i hi, hcg, hcp]

theorem arc_start_lt (Q S k i : Nat) (hQ0 : 0 < Q) : arc_start Q S k i < Q :=
  Nat.mod_lt _ hQ0

/-- The cycle distance between consecutive rotated block boundaries is the
block length `arc_len`. -/
theorem dist_arc_len (Q S k i : Nat) (hQ0 : 0 < Q) (hS0 : 0 < S)
    (hSQ : S ≤ Q) (hi : i < S) :
    distQ Q (arc_start Q S k i) (arc_start Q S k ((i + 1) % S)) =
      arc_len Q S i := by
  have hq1 : 1 ≤ Q / S := (Nat.one_le_div_iff hS0).mpr hSQ
  have hqS : Q / S * S ≤ Q := Nat.div_mul_le_self Q S
  have hsplit : Q / S * S = Q / S * (S - 1) + Q / S := by
    have h1 : S - 1 + 1 = S := by omega
    calc Q / S * S = Q / S * (S - 1 + 1) := by rw [h1]
    _ = Q / S * (S - 1) + Q / S := by rw [Nat.mul_add, Nat.mul_one]
  have hα : arc_start Q S k i < Q := Nat.mod_lt _ hQ0
  have hβ : arc_start Q S k ((i + 1) % S) < Q := Nat.mod_lt _ hQ0
  by_cases hiS : i = S - 1
  · subst hiS
    have hlen : arc_len Q S (S - 1) = Q - Q / S * (S - 1) := by
      unfold arc_len
      rw [if_pos rfl]
    rw [hlen]
    refine distQ_unique Q _ _ _ hQ0 hα hβ (by omega) (by omega) ?_
    have hmod0 : (S - 1 + 1) % S = 0 := by
      rw [show S - 1 + 1 = S from by omega]
      exact Nat.mod_self S
    rw [hmod0]
    unfold arc_start
    rw [Nat.mod_add_mod, Nat.mod_mod_of_dvd _ dvd_rfl, Nat.mul_zero,
      Nat.zero_add,
      show Q / S * (S - 1) + k + (Q - Q / S * (S - 1)) = k + Q from by omega,
      Nat.add_mod_right]
  · have hi1 : i + 1 < S := by omega
    have hmod1 : (i + 1) % S = i + 1 := Nat.mod_eq_of_lt hi1
    have hlen : arc_len Q S i = Q / S := by
      unfold arc_len
      rw [if_neg hiS]
    rw [hlen]
    refine distQ_unique Q _ _ _ hQ0 hα hβ hq1 (Nat.div_le_self Q S) ?_
    rw [hmod1]
    unfold arc_start
    rw [Nat.mod_add_mod, Nat.mod_mod_of_dvd _ dvd_rfl,
      show Q / S * i + k + Q / S = Q / S * (i + 1) + k from by ring]

/-- Per-subshard characterization: subshard `i` initializes, reaches DONE
within `Q` raw steps, its raw values are exactly its arc, and its emitted
pairs are the eligible arc values, decoded. -/
theorem subshard_spec {env : scan_env_t} {p g Q b : Nat}
    (H : C1Hyps env p g Q b) (cycle : cycle_t) (N T i : Nat)
    (hcp : cycle.group.prime = p) (hcg : cycle.generator = g)
    (hco : cycle.order = Q) (hk : cycle.offset < Q)
    (hN : 0 < N) (hT : 0 < T) (hS : N * T < Q) (hi : i < N * T) :
    subshard_done env cycle N T b i = true ∧
    subshard_emitted env cycle N T b i =
      ((arc_full p g (arc_start Q (N * T) cycle.offset i)
          (arc_len Q (N * T) i)).filter
        (fun v => decide (emit_ok env b v))).map (decode_pair b) ∧
    subshard_raw_values env cycle N T b i =
      arc_full p g (arc_start Q (N * T) cycle.offset i)
        (arc_len Q (N * T) i) := by
  obtain ⟨s0, hraw, hfac, hmo, hlast, hbits, hcur, hiter, hmax⟩ :=
    subshard_raw_eq H cycle N T i hcp hcg hco hk hN hT hS hi
  have hS0 : 0 < N * T := Nat.mul_pos hN hT
  have hQ0 := H.hQ0
  have hαlt : arc_start Q (N * T) cycle.offset i < Q :=
    arc_start_lt _ _ _ _ hQ0
  have hβlt : arc_start Q (N * T) cycle.offset ((i + 1) % (N * T)) < Q :=
    arc_start_lt _ _ _ _ hQ0
  have hdlen : distQ Q (arc_start Q (N * T) cycle.offset i)
      (arc_start Q (N * T) cycle.offset ((i + 1) % (N * T))) =
      arc_len Q (N * T) i :=
    dist_arc_len Q (N * T) cycle.offset i hQ0 hS0 (Nat.le_of_lt hS) hi
  have hd1 : 1 ≤ arc_len Q (N * T) i := by
    rw [← hdlen]
    exact distQ_pos Q _ _
  have hd2 : arc_len Q (N * T) i ≤ Q := by
    rw [← hdlen]
    exact distQ_le Q _ _ hQ0
  have hmodeq : (arc_start Q (N * T) cycle.offset i + arc_len Q (N * T) i) % Q =
      arc_start Q (N * T) cycle.offset ((i + 1) % (N * T)) % Q := by
    rw [← hdlen]
    exact distQ_modeq Q _ _ hQ0 hαlt hβlt
  have hminim : ∀ j, 0 < j → j < arc_len Q (N * T) i →
      (arc_start Q (N * T) cycle.offset i + j) % Q ≠
        arc_start Q (N * T) cycle.offset ((i + 1) % (N * T)) % Q := by
    rw [← hdlen]
    exact distQ_min Q _ _ hQ0 hαlt hβlt
  obtain ⟨hdrv, htrace⟩ := drive_trace_spec H
    (arc_start Q (N * T) cycle.offset ((i + 1) % (N * T)))
    (arc_len Q (N * T) i) (arc_start Q (N * T) cycle.offset i) s0 Q
    hd1 hd2 hfac hmo hlast hbits hcur hmodeq hminim
  have hrange : 1 ≤ s0.current ∧ s0.current < p := by
    rw [hcur]
    exact pow_mod_prime_range p g _ H.hp H.hg1 H.hg2
  have hnd : s0.current ≠ ZMAP_SHARD_DONE := by
    unfold ZMAP_SHARD_DONE
    omega
  have hcheck : (dec64 s0.current >>> s0.bits_for_port < env.max_ip_index ∧
      extract_port (dec64 s0.current) s0.bits_for_port < env.port_count) ↔
      emit_ok env b s0.current := by
    rw [hbits]
    exact (roll_check_iff H s0.current hrange.1 hrange.2).trans
      (pair_ok_iff_emit_ok H s0.current hrange.1 hrange.2)
  have hrawv : subshard_raw_values env cycle N T b i =
      arc_full p g (arc_start Q (N * T) cycle.offset i)
        (arc_len Q (N * T) i) := by
    unfold subshard_raw_values
    rw [hraw]
    show s0.current :: shard_raw_trace env cycle.order s0 = _
    rw [hco, htrace, hcur, arc_full_cons p g _ _ hd1]
  by_cases hstart : emit_ok env b s0.current
  · have hinit : subshard_init env cycle N T b i = some s0 := by
      unfold subshard_init shard_init
      rw [hraw]
      show shard_roll_to_valid env cycle.order s0 = some s0
      unfold shard_roll_to_valid
      rw [if_pos (hcheck.mpr hstart)]
    have henum := shard_enumerate_eq_cons H s0
      (arc_start Q (N * T) cycle.offset i) Q hbits hcur
    refine ⟨?_, ?_, hrawv⟩
    · unfold subshard_done
      rw [hinit]
      show (shard_enumerate env cycle.order s0).2 = true
      rw [hco, henum, hdrv]
    · unfold subshard_emitted
      rw [hinit]
      show (shard_enumerate env cycle.order s0).1 = _
      rw [hco, henum, hdrv]
      show decode_pair b s0.current :: _ = _
      have hstart2 : emit_ok env b
          (g ^ arc_start Q (N * T) cycle.offset i % p) := by
        rw [← hcur]
        exact hstart
      rw [hcur, arc_full_cons p g _ _ hd1,
        filter_emit_cons_pos env b _ _ hstart2, List.map_cons]
  · have hloop := roll_enum_spec H
      (arc_start Q (N * T) cycle.offset ((i + 1) % (N * T)))
      (arc_len Q (N * T) i) (arc_start Q (N * T) cycle.offset i) s0 Q Q
      hd1 hd2 hd2 hfac hmo hlast hbits hcur hmodeq hminim
    cases hnl : shard_next_loop env Q s0 with
    | none =>
      rw [hnl] at hloop
      exact absurd hloop (by simp)
    | some pr =>
      rw [hnl, Option.map_some'] at hloop
      have hpr := Option.some.inj hloop
      have hinit : subshard_init env cycle N T b i = some pr.1 := by
        unfold subshard_init shard_init
        rw [hraw]
        show shard_roll_to_valid env cycle.order s0 = some pr.1
        unfold shard_roll_to_valid
        rw [if_neg (fun hcon => hstart (hcheck.mp hcon))]
        unfold shard_get_next_target
        rw [if_neg hnd, hco, hnl, Option.map_some']
      have hstart2 : ¬ emit_ok env b
          (g ^ arc_start Q (N * T) cycle.offset i % p) := by
        rw [← hcur]
        exact hstart
      refine ⟨?_, ?_, hrawv⟩
      · unfold subshard_done
        rw [hinit]
        show (shard_enumerate env cycle.order pr.1).2 = true
        rw [hco, hpr]
      · unfold subshard_emitted
        rw [hinit]
        show (shard_enumerate env cycle.order pr.1).1 = _
        rw [hco, hpr]
        show _ = (((arc_full p g (arc_start Q (N * T) cycle.offset i)
            (arc_len Q (N * T) i)).filter
          (fun v => decide (emit_ok env b v))).map (decode_pair b))
        rw [arc_full_cons p g _ _ hd1, filter_emit_cons_neg env b _ _ hstart2]

/-! ### Block arithmetic for the exponent partition -/

theorem rot_inj {Q k x1 x2 : Nat} (hx1 : x1 < Q) (hx2 : x2 < Q)
    (h : (x1 + k) % Q = (x2 + k) % Q) : x1 = x2 := by
  have h2 : x1 % Q = x2 % Q := Nat.ModEq.add_right_cancel' k h
  rwa [Nat.mod_eq_of_lt hx1, Nat.mod_eq_of_lt hx2] at h2

theorem block_lt (Q S i t : Nat) (hS0 : 0 < S) (hi : i < S)
    (ht : t < arc_len Q S i) : Q / S * i + t < Q := by
  have hqS : Q / S * S ≤ Q := Nat.div_mul_le_self Q S
  by_cases hiS : i = S - 1
  · subst hiS
    unfold arc_len at ht
    rw [if_pos rfl] at ht
    have hsplit : Q / S * S = Q / S * (S - 1) + Q / S := by
      calc Q / S * S = Q / S * (S - 1 + 1) := by rw [show S - 1 + 1 = S from by omega]
      _ = Q / S * (S - 1) + Q / S := by rw [Nat.mul_add, Nat.mul_one]
    omega
  · unfold arc_len at ht
    rw [if_neg hiS] at ht
    have h1 : Q / S * i + t < Q / S * (i + 1) := by
      rw [Nat.mul_add, Nat.mul_one]
      omega
    have h2 : Q / S * (i + 1) ≤ Q / S * S :=
      Nat.mul_le_mul (Nat.le_refl _) (by omega)
    omega

theorem block_inj (Q S : Nat) (hS0 : 0 < S) (i t j u : Nat)
    (hi : i < S) (hj : j < S) (ht : t < arc_len Q S i)
    (hu : u < arc_len Q S j) (he : Q / S * i + t = Q / S * j + u) :
    i = j ∧ t = u := by
  have key : ∀ i' t' j' u', i' < j' → j' < S → t' < arc_len Q S i' →
      Q / S * i' + t' ≠ Q / S * j' + u' := by
    intro i' t' j' u' hij hjS ht' hcon
    have hiS : i' ≠ S - 1 := by omega
    unfold arc_len at ht'
    rw [if_neg hiS] at ht'
    have h1 : Q / S * i' + t' < Q / S * (i' + 1) := by
      rw [Nat.mul_add, Nat.mul_one]
      omega
    have h2 : Q / S * (i' + 1) ≤ Q / S * j' :=
      Nat.mul_le_mul (Nat.le_refl _) (by omega)
    omega
  rcases Nat.lt_trichotomy i j with hlt | heq | hgt
  · exact absurd he (key i t j u hlt hj ht)
  · subst heq
    exact ⟨rfl, by omega⟩
  · exact absurd he.symm (key j u i t hgt hi hu)

theorem block_cover (Q S y : Nat) (hS0 : 0 < S) (hSQ : S ≤ Q) (hy : y < Q) :
    ∃ i t, i < S ∧ t < arc_len Q S i ∧ Q / S * i + t = y := by
  have hq1 : 1 ≤ Q / S := (Nat.one_le_div_iff hS0).mpr hSQ
  have hdm : Q / S * (y / (Q / S)) + y % (Q / S) = y := Nat.div_add_mod y (Q / S)
  have hmod : y % (Q / S) < Q / S := Nat.mod_lt _ (by omega)
  by_cases hcase : y / (Q / S) < S - 1
  · refine ⟨y / (Q / S), y % (Q / S), by omega, ?_, hdm⟩
    unfold arc_len
    rw [if_neg (by omega)]
    exact hmod
  · have hge : S - 1 ≤ y / (Q / S) := by omega
    have hle : Q / S * (S - 1) ≤ Q / S * (y / (Q / S)) :=
      Nat.mul_le_mul (Nat.le_refl _) hge
    refine ⟨S - 1, y - Q / S * (S - 1), by omega, ?_, by omega⟩
    unfold arc_len
    rw [if_pos rfl]
    omega

/-- When the generator's order is the full group order `p - 1`, every
residue in `[1, p)` is a power `g ^ e % p` with exponent below `Q`. -/
theorem exists_pow_eq {env : scan_env_t} {p g Q b : Nat}
    (H : C1Hyps env p g Q b) (hQp : Q = p - 1) (v : Nat)
    (hv1 : 1 ≤ v) (hv2 : v < p) : ∃ e, e < Q ∧ g ^ e % p = v := by
  haveI : Fact (Nat.Prime p) := ⟨H.hp⟩
  haveI : NeZero p := ⟨H.hp.pos.ne'⟩
  haveI : Fact (1 < p) := ⟨H.hp.one_lt⟩
  have hcop : Nat.Coprime g p := by
    rcases (Nat.coprime_or_dvd_of_prime H.hp g) with h | h
    · exact Nat.Coprime.symm h
    · exact absurd (Nat.le_of_dvd H.hg1 h) (Nat.not_le.mpr H.hg2)
  have hvcop : Nat.Coprime v p := by
    rcases (Nat.coprime_or_dvd_of_prime H.hp v) with h | h
    · exact Nat.Coprime.symm h
    · exact absurd (Nat.le_of_dvd hv1 h) (Nat.not_le.mpr hv2)
  have hpow1 : ∀ e : Nat, ((g : ZMod p) ^ e = 1 ↔ g ^ e % p = 1) := by
    intro e
    constructor
    · intro h
      have hval := congrArg ZMod.val h
      rwa [← Nat.cast_pow, ZMod.val_natCast, ZMod.val_one] at hval
    · intro h
      have h2 : (((g ^ e % p : Nat)) : ZMod p) = ((1 : Nat) : ZMod p) := by
        rw [h]
      rwa [ZMod.natCast_mod, Nat.cast_pow, Nat.cast_one] at h2
  have horder : orderOf (ZMod.unitOfCoprime g hcop) = Q := by
    rw [orderOf_eq_iff H.hQ0]
    constructor
    · apply Units.ext
      rw [Units.val_pow_eq_pow_val, Units.val_one, ZMod.coe_unitOfCoprime]
      exact (hpow1 Q).mpr H.hgQ
    · intro m hmQ hm0 hc
      have hgm : (g : ZMod p) ^ m = 1 := by
        rw [← ZMod.coe_unitOfCoprime g hcop, ← Units.val_pow_eq_pow_val, hc,
          Units.val_one]
      exact H.hgmin m hm0 hmQ ((hpow1 m).mp hgm)
  have htop : Subgroup.zpowers (ZMod.unitOfCoprime g hcop) = ⊤ := by
    apply Subgroup.eq_top_of_card_eq
    rw [Nat.card_eq_fintype_card, Nat.card_eq_fintype_card,
      Fintype.card_zpowers, horder, ZMod.card_units, hQp]
  have hmem : ZMod.unitOfCoprime v hvcop ∈
      Subgroup.zpowers (ZMod.unitOfCoprime g hcop) := by
    rw [htop]
    trivial
  obtain ⟨n, hn⟩ := Submonoid.mem_powers_iff _ _ |>.mp
    (mem_powers_iff_mem_zpowers.mpr hmem)
  have hQ0 := H.hQ0
  have hred : (ZMod.unitOfCoprime g hcop) ^ (n % Q) =
      ZMod.unitOfCoprime v hvcop := by
    rw [← hn]
    apply pow_eq_pow_iff_modEq.mpr
    rw [horder]
    exact (Nat.mod_modEq n Q)
  refine ⟨n % Q, Nat.mod_lt _ hQ0, ?_⟩
  have hval := congrArg (fun w : (ZMod p)ˣ => ZMod.val (w : ZMod p)) hred
  simp only [Units.val_pow_eq_pow_val, ZMod.coe_unitOfCoprime] at hval
  rwa [← Nat.cast_pow, ZMod.val_natCast, ZMod.val_cast_of_lt hv2] at hval

theorem exp_norm (Q S k i t : Nat) :
    (arc_start Q S k i + t) % Q = (Q / S * i + t + k) % Q := by
  unfold arc_start
  rw [Nat.mod_add_mod]
  congr 1
  omega

theorem arc_full_nodup {env : scan_env_t} {p g Q b : Nat}
    (H : C1Hyps env p g Q b) (A d : Nat) (hd : d ≤ Q) :
    (arc_full p g A d).Nodup := by
  unfold arc_full
  apply List.Nodup.map_on ?_ (List.nodup_range d)
  intro t ht u hu he
  rw [List.mem_range] at ht hu
  have hm : t % Q = u % Q :=
    Nat.ModEq.add_left_cancel' A ((pow_mod_eq_iff H (A + t) (A + u)).mp he)
  rwa [Nat.mod_eq_of_lt (lt_of_lt_of_le ht hd),
    Nat.mod_eq_of_lt (lt_of_lt_of_le hu hd)] at hm

/-- Value-level disjointness of the arcs of two distinct subshards. -/
theorem arc_disjoint {env : scan_env_t} {p g Q b : Nat}
    (H : C1Hyps env p g Q b) (k S i j : Nat) (hS0 : 0 < S) (hSQ : S ≤ Q)
    (hi : i < S) (hj : j < S) (hij : i ≠ j) (v : Nat)
    (hvi : v ∈ arc_full p g (arc_start Q S k i) (arc_len Q S i)) :
    v ∉ arc_full p g (arc_start Q S k j) (arc_len Q S j) := by
  intro hvj
  obtain ⟨t, ht, het⟩ := (mem_arc_full p g _ _ v).mp hvi
  obtain ⟨u, hu, heu⟩ := (mem_arc_full p g _ _ v).mp hvj
  have he : g ^ (arc_start Q S k i + t) % p =
      g ^ (arc_start Q S k j + u) % p := by
    rw [het, heu]
  have hm : (arc_start Q S k i + t) % Q = (arc_start Q S k j + u) % Q :=
    (pow_mod_eq_iff H _ _).mp he
  rw [exp_norm, exp_norm] at hm
  have hx : Q / S * i + t = Q / S * j + u :=
    rot_inj (block_lt Q S i t hS0 hi ht) (block_lt Q S j u hS0 hj hu) hm
  exact hij (block_inj Q S hS0 i t j u hi hj ht hu hx).1

/-- Master partition-exactness theorem over the ambient hypotheses: a
primitive root (order `Q = p - 1`), a universe that fits below the prime,
and a coherent configuration give the full C1 property. -/
theorem partition_exact_of {env : scan_env_t} {p g Q b : Nat}
    (H : C1Hyps env p g Q b) (hQp : Q = p - 1)
    (hcap : env.max_ip_index * 2 ^ b < p)
    (cycle : cycle_t) (N T : Nat)
    (hcp : cycle.group.prime = p) (hcg : cycle.generator = g)
    (hco : cycle.order = Q) (hk : cycle.offset < Q)
    (hN : 0 < N) (hT : 0 < T) (hS : N * T < Q) :
    partition_exact env cycle N T b := by
  have hS0 : 0 < N * T := Nat.mul_pos hN hT
  have hSQ : N * T ≤ Q := Nat.le_of_lt hS
  have hp32 := p_le_two_pow_32 H
  have hspec := fun i (hi : i < N * T) =>
    subshard_spec H cycle N T i hcp hcg hco hk hN hT hS hi
  have hdle : ∀ i, i < N * T → arc_len Q (N * T) i ≤ Q := by
    intro i hi
    rw [← dist_arc_len Q (N * T) cycle.offset i H.hQ0 hS0 hSQ hi]
    exact distQ_le Q _ _ H.hQ0
  have hval := fun i (_ : i < N * T) v
      (hv : v ∈ arc_full p g (arc_start Q (N * T) cycle.offset i)
        (arc_len Q (N * T) i)) => arc_full_val_range H _ _ v hv
  refine ⟨?_, ?_, ?_, ?_, ?_⟩
  · intro i hi j hj hij v hvi
    rw [List.mem_range] at hi hj
    rw [(hspec i hi).2.2] at hvi
    rw [(hspec j hj).2.2]
    exact arc_disjoint H cycle.offset (N * T) i j hS0 hSQ hi hj hij v hvi
  · intro i hi
    rw [List.mem_range] at hi
    exact (hspec i hi).1
  · unfold all_emitted
    rw [List.flatMap_def]
    refine List.nodup_flatten.mpr ⟨?_, ?_⟩
    · intro l hl
      obtain ⟨i, hi, rfl⟩ := List.mem_map.mp hl
      rw [List.mem_range] at hi
      rw [(hspec i hi).2.1]
      refine List.Nodup.map_on ?_
        (List.Nodup.filter _ (arc_full_nodup H _ _ (hdle i hi)))
      intro x hx y hy hxy
      have hxr := hval i hi x (List.mem_filter.mp hx).1
      have hyr := hval i hi y (List.mem_filter.mp hy).1
      exact decode_pair_inj H.hb hxr.1 (by omega) hyr.1 (by omega) hxy
    · rw [List.pairwise_map]
      refine List.Pairwise.imp_of_mem ?_ (List.pairwise_lt_range (N * T))
      intro a c ha hc hlt
      rw [List.mem_range] at ha hc
      intro pr hpra hprc
      rw [(hspec a ha).2.1] at hpra
      rw [(hspec c hc).2.1] at hprc
      obtain ⟨x, hx, hxe⟩ := List.mem_map.mp hpra
      obtain ⟨y, hy, hye⟩ := List.mem_map.mp hprc
      have hxm := (List.mem_filter.mp hx).1
      have hym := (List.mem_filter.mp hy).1
      have hxr := hval a ha x hxm
      have hyr := hval c hc y hym
      have hxy : x = y := decode_pair_inj H.hb hxr.1 (by omega) hyr.1
        (by omega) (hxe.trans hye.symm)
      exact arc_disjoint H cycle.offset (N * T) a c hS0 hSQ ha hc
        (Nat.ne_of_lt hlt) x hxm (hxy ▸ hym)
  · intro pr hpr
    obtain ⟨i, hi, hpri⟩ := List.mem_flatMap.mp hpr
    rw [List.mem_range] at hi
    rw [(hspec i hi).2.1] at hpri
    obtain ⟨v, hv, hve⟩ := List.mem_map.mp hpri
    have hek : emit_ok env b v := of_decide_eq_true (List.mem_filter.mp hv).2
    rw [← hve]
    exact ⟨hek.2.1, hek.2.2⟩
  · intro a ha c hc
    rw [List.mem_range] at ha hc
    have hc2b : c < 2 ^ b := lt_of_lt_of_le hc H.hpc
    have ha32 : a < 2 ^ 32 := lt_of_lt_of_le ha H.hip
    have hvp : a * 2 ^ b + c + 1 < p := by
      have h1 : (a + 1) * 2 ^ b = a * 2 ^ b + 2 ^ b := Nat.succ_mul a (2 ^ b)
      have h2 : (a + 1) * 2 ^ b ≤ env.max_ip_index * 2 ^ b :=
        Nat.mul_le_mul ha (Nat.le_refl _)
      omega
    have hv1 : 1 ≤ a * 2 ^ b + c + 1 := by omega
    obtain ⟨e, heQ, hge⟩ := exists_pow_eq H hQp (a * 2 ^ b + c + 1) hv1 hvp
    have hyk : ((e + (Q - cycle.offset)) % Q + cycle.offset) % Q = e := by
      rw [Nat.mod_add_mod,
        show e + (Q - cycle.offset) + cycle.offset = e + Q from by omega,
        Nat.add_mod_right, Nat.mod_eq_of_lt heQ]
    obtain ⟨i, t, hiS, ht, hit⟩ := block_cover Q (N * T)
      ((e + (Q - cycle.offset)) % Q) hS0 hSQ (Nat.mod_lt _ H.hQ0)
    have hexp : (arc_start Q (N * T) cycle.offset i + t) % Q = e := by
      rw [exp_norm, hit]
      exact hyk
    have hvmem : a * 2 ^ b + c + 1 ∈
        arc_full p g (arc_start Q (N * T) cycle.offset i)
          (arc_len Q (N * T) i) := by
      rw [mem_arc_full]
      refine ⟨t, ht, ?_⟩
      have h1 : g ^ (arc_start Q (N * T) cycle.offset i + t) % p =
          g ^ ((arc_start Q (N * T) cycle.offset i + t) % Q) % p :=
        (pow_mod_eq_iff H _ _).mpr (Nat.mod_modEq _ Q).symm
      rw [h1, hexp, hge]
    have hpair : decode_pair b (a * 2 ^ b + c + 1) = (a, c) :=
      decode_pair_encode b a c H.hb ha32 hc2b
    have hek : emit_ok env b (a * 2 ^ b + c + 1) := by
      apply (pair_ok_iff_emit_ok H _ hv1 hvp).mp
      have h1 := congrArg Prod.fst hpair
      have h2 := congrArg Prod.snd hpair
      unfold decode_pair at h1 h2
      dsimp only at h1 h2
      unfold pair_ok
      rw [h1, h2]
      exact ⟨ha, hc⟩
    unfold all_emitted
    rw [List.mem_flatMap]
    refine ⟨i, List.mem_range.mpr hiS, ?_⟩
    rw [(hspec i hiS).2.1, List.mem_map]
    refine ⟨a * 2 ^ b + c + 1, ?_, hpair⟩
    rw [List.mem_filter]
    exact ⟨hvmem, decide_eq_true hek⟩

/-- C1 (partition exactness, amended: moduli restricted by
`(p - 1) ^ 2 < 2 ^ 64` so the 64-bit advance multiply cannot wrap, with
the generator a primitive root — order `Q = p - 1` — and the configured
universe fitting under the prime and the `max_target_index` pre-filter):
for every such cycle and every `num_shards = N > 0`, `num_threads = T > 0`
with `N * T < Q`, the raw value sets of distinct subshards constructed by
`shard_init` are disjoint, every subshard reaches DONE within `Q` raw
steps, and the decoded in-bounds pairs collected across all subshards are
exactly the cross-product `[0, max_ip_index) × [0, port_count)`, with no
duplicates and no omissions. -/
theorem C1_partition_exactness (env : scan_env_t) (cycle : cycle_t)
    (p g Q N T b : Nat)
    (hcp : cycle.group.prime = p) (hcg : cycle.generator = g)
    (hco : cycle.order = Q) (hk : cycle.offset < Q)
    (hp : Nat.Prime p) (hg1 : 0 < g) (hg2 : g < p) (hQp : Q = p - 1)
    (hgQ : g ^ Q % p = 1)
    (hgmin : ∀ e ∈ List.range Q, 0 < e → g ^ e % p ≠ 1)
    (hw : (p - 1) * (p - 1) < 2 ^ 64)
    (hb : b ≤ 16) (hpc : env.port_count ≤ 2 ^ b)
    (hip : env.max_ip_index ≤ 2 ^ 32)
    (hcap : env.max_ip_index * 2 ^ b < p)
    (hmti : ∀ a ∈ List.range env.max_ip_index,
      ∀ c ∈ List.range env.port_count,
        a * 2 ^ b + c + 1 < env.max_target_index)
    (hN : 0 < N) (hT : 0 < T) (hS : N * T < Q) :
    partition_exact env cycle N T b := by
  have hQ0 : 0 < Q := by
    have := Nat.mul_pos hN hT
    omega
  have H : C1Hyps env p g Q b :=
    ⟨hp, hg1, hg2, hQ0, hgQ,
      fun e he1 he2 => hgmin e (List.mem_range.mpr he2) he1,
      hw, hb, hpc, hip,
      fun a ha c hc =>
        hmti a (List.mem_range.mpr ha) c (List.mem_range.mpr hc)⟩
  exact partition_exact_of H hQp hcap cycle N T hcp hcg hco hk hN hT hS

/-- C1 (counterexample to the unamended claim): with the prime modulus
`p = 4294967311 = 2 ^ 32 + 15` and `g = 4294967310 = p - 1`, a generator
of order exactly `Q = 2` (`g ^ 2 ≡ 1`, `g ^ 1 ≢ 1`), one shard and one
thread (`1 * 1 < Q`), offset `0`, `bits_for_port = 0`, and scan bounds
`max_target_index = 2`, `max_ip_index = 1`, `port_count = 1`, the claimed
partition property fails in the code: the wrapped 64-bit advance multiply
(`4294967310 * 4294967310` wraps mod `2 ^ 64`) derails the trajectory — it
produces the out-of-sequence raw value `4294967087` instead of returning
to `first = 1` — so the subshard never reaches DONE and the decoded union
misses `(0, 0)` (with exact arithmetic the trajectory `1 → 4294967310 → 1`
would terminate and emit exactly `(0, 0)`). -/
theorem C1_partition_exactness_counterexample :
    Nat.Prime 4294967311 ∧
    (4294967310 : Nat) ^ 2 % 4294967311 = 1 ∧
    (4294967310 : Nat) ^ 1 % 4294967311 ≠ 1 ∧
    (0 : Nat) < 1 ∧ 1 * 1 < 2 ∧
    ¬ partition_exact ⟨2, 1, 1⟩ ⟨⟨4294967311, 2⟩, 4294967310, 2, 0⟩ 1 1 0 :=
  ⟨prime_4294967311, by decide, by decide, by decide, by decide, by decide⟩

/-- C1 (witness): the specification's worked scenario — `p = 23`, primitive
root `g = 5` of order `Q = 22`, offset `0`, one shard with two threads,
`bits_for_port = 2`, `max_target_index = 21`, `max_ip_index = 5`,
`port_count = 4` — satisfies every hypothesis and hence the partition
property. -/
theorem C1_partition_exactness_witness :
    partition_exact ⟨21, 5, 4⟩ ⟨⟨23, 22⟩, 5, 22, 0⟩ 1 2 2 :=
  C1_partition_exactness ⟨21, 5, 4⟩ ⟨⟨23, 22⟩, 5, 22, 0⟩ 23 5 22 1 2 2
    rfl rfl rfl (by decide) (by decide) (by decide) (by decide) (by decide)
    (by decide) (by decide) (by decide) (by decide) (by decide) (by decide)
    (by decide) (by decide) (by decide) (by decide) (by decide)
